import Mathlib

/-!
# Verification of the MCTS engine of `AI_Reversi` (`src/main.py`)

A shallow embedding of the Monte Carlo Tree Search engine of `main.py`:
the search-tree node class `Node`, and the `AIPlayer` operations `uct`,
`select`, `extend`, `stimulate`, `backup`, `game_over`, `get_move`.

Python object references into the search tree are embedded as paths
(lists of child indices) from the root; an in-place update of a node
reached by such a reference becomes a functional update of the tree at
that path.  Rewards (Python floats that only ever hold results of
integer arithmetic) are embedded as rationals; the real-valued UCB
score, which uses `math.sqrt` and `math.log`, is embedded over `ℝ`.

The board/game-rules engine (`game.py`, imported by `main.py` but not
part of the sources) is an external collaborator consumed through a
narrow interface; it is modelled from the spec as an abstract structure
of operations (`GameOps`).
-/

namespace AIReversi

/-- The two player identifiers, `'X'` (black) and `'O'` (white) of `main.py`. -/
inductive Color : Type where
  | X : Color
  | O : Color
deriving DecidableEq, Repr

/-- The `if color == 'X': color = 'O' else: color = 'X'` idiom of `main.py`. -/
def Color.flip : Color → Color
  | Color.X => Color.O
  | Color.O => Color.X

/-- Modelled from the spec: the external `Position` interface provided by
`game.py`, which is imported by `main.py` but is not among the repository
sources.  Per the spec's §6 contract it provides legal-move enumeration
(`legal_moves(side)`, here `legal_actions` after the call
`board.get_legal_actions(color)` in `main.py`), in-place move application
(`apply_move` / `board._move(action, color)`, modelled functionally as a
board-valued function), and winner determination
(`board.get_winner()` returning a winner code and the margin; per the code
comment in `main.py`: `0` black wins, `1` white wins, `2` draw).
A board value is an opaque type `β`, a move an opaque type `μ`. -/
structure GameOps (β μ : Type) where
  legal_actions : β → Color → List μ
  move : β → μ → Color → β
  winner : β → ℕ × ℕ

/-- The search-tree node class `Node` of `main.py`: visit count, reward
accumulator, board snapshot, node color (side to move), the move that
produced the node (`None` for the root), and the ordered children list.
The Python `parent` back-pointer is represented implicitly: a node is
addressed by its path from the root, and its parent is the path's
longest proper prefix. -/
inductive Node (β μ : Type) : Type where
  | mk (visits : ℕ) (reward : ℚ) (now_board : β) (color : Color)
       (act : Option μ) (children : List (Node β μ))

namespace Node

/-- `self.visits` field accessor. -/
def visits : Node β μ → ℕ
  | .mk v _ _ _ _ _ => v

/-- `self.reward` field accessor. -/
def reward : Node β μ → ℚ
  | .mk _ r _ _ _ _ => r

/-- `self.now_board` field accessor. -/
def now_board : Node β μ → β
  | .mk _ _ b _ _ _ => b

/-- `self.color` field accessor. -/
def color : Node β μ → Color
  | .mk _ _ _ c _ _ => c

/-- `self.action` field accessor. -/
def act : Node β μ → Option μ
  | .mk _ _ _ _ a _ => a

/-- `self.children` field accessor. -/
def children : Node β μ → List (Node β μ)
  | .mk _ _ _ _ _ kids => kids

/-- The node a Python reference `node` denotes, recovered from the root
and the path of child indices leading to it (`none` on an invalid path). -/
def getAt : Node β μ → List ℕ → Option (Node β μ)
  | t, [] => some t
  | t, i :: p =>
    match t.children[i]? with
    | none => none
    | some c => getAt c p

/-- `Node.full_expanded` of `main.py`: a node with no children is not fully
expanded; otherwise it is fully expanded iff no child has `visits == 0`. -/
def full_expanded (t : Node β μ) : Bool :=
  if t.children.isEmpty then false
  else t.children.all (fun kid => kid.visits ≠ 0)

end Node

/-- Python's `sys.maxsize`, `2 ^ 63 - 1` on a 64-bit platform, as a real
number (`main.py` uses it as the UCB score of an unvisited node and, negated,
as the initial maximum in the arg-max loops). -/
noncomputable def sysMaxsize : ℝ := 2 ^ 63 - 1

/-- `Node.get_ucb` of `main.py`: an unvisited node scores `sys.maxsize`;
otherwise the score is `reward / visits + ucb_param * sqrt(2 * log(parent.visits) / visits)`.
The Python `self.parent.visits` access is the explicit argument
`parent_visits`. -/
noncomputable def Node.get_ucb (t : Node β μ) (parent_visits : ℕ) (ucb_param : ℝ) : ℝ :=
  if t.visits = 0 then sysMaxsize
  else (t.reward : ℝ) / (t.visits : ℝ) +
    ucb_param * Real.sqrt (2 * Real.log parent_visits / (t.visits : ℝ))

/-- `Node(now_board=deepcopy(board), color=self.color)` as performed by
`AIPlayer.get_move`: a fresh root with zero visits, zero reward, no action
and no children.  `deepcopy` of a board is the identity at the level of
board values. -/
def mkRoot (b : β) (c : Color) : Node β μ :=
  Node.mk 0 0 b c none []

namespace AIPlayer

/-- `AIPlayer.backup` of `main.py`: starting from the node denoted by path
`p` and walking the `parent` chain up to the root inclusive, increment
`visits` and add the reward to `reward` when the node's color is the
engine's own color `self`, subtract it otherwise.  Walking leaf-to-root
over parent pointers updates exactly the nodes at the prefixes of `p`,
which is how the functional version proceeds (root first). -/
def backup (self : Color) : Node β μ → List ℕ → ℚ → Node β μ
  | .mk v r b c a kids, [], rew =>
    .mk (v + 1) (if c = self then r + rew else r - rew) b c a kids
  | .mk v r b c a kids, i :: p, rew =>
    .mk (v + 1) (if c = self then r + rew else r - rew) b c a
      (match kids[i]? with
       | none => kids
       | some child => kids.set i (backup self child p rew))

/-- The body of `AIPlayer.extend` of `main.py` applied to the node itself:
a node with `visits == 0` is returned unexpanded (`false` = the result is
the node itself); otherwise one child per legal action of the node's color
on the node's board is appended (`deepcopy` then `_move`, child color the
opponent), and the result is the node when its children list is empty and
its first child otherwise (`true` = the result descends to child `0`). -/
def extend_node (g : GameOps β μ) : Node β μ → Node β μ × Bool
  | .mk v r b c a kids =>
    if v = 0 then (.mk v r b c a kids, false)
    else
      let newKids := (g.legal_actions b c).map
        (fun action => Node.mk 0 0 (g.move b action c) c.flip (some action) [])
      let kids' := kids ++ newKids
      (.mk v r b c a kids', !kids'.isEmpty)

/-- `AIPlayer.extend` of `main.py` acting on the node denoted by path `p`:
the tree with that node expanded in place, together with the path of the
node `extend` returns (the node itself, or its first child). -/
def extendAt (g : GameOps β μ) : Node β μ → List ℕ → Node β μ × List ℕ
  | t, [] =>
    let res := extend_node g t
    (res.1, if res.2 then [0] else [])
  | .mk v r b c a kids, i :: p =>
    match kids[i]? with
    | none => (.mk v r b c a kids, i :: p)
    | some child =>
      let res := extendAt g child p
      (.mk v r b c a (kids.set i res.1), i :: res.2)

/-- `AIPlayer.game_over` of `main.py`: the game is over iff both colors
have no legal action on the board. -/
def game_over (g : GameOps β μ) (b : β) : Bool :=
  (g.legal_actions b Color.X).isEmpty && (g.legal_actions b Color.O).isEmpty

/-- `random.choice(action_list)` derandomized: the ambient random stream is
an arbitrary function supplying one natural number per call, and the choice
takes the supplied number modulo the list length as the index.  On an empty
list `random.choice` raises `IndexError`, embedded as `none`. -/
def pickFrom (n : ℕ) (l : List μ) : Option μ :=
  l.get? (n % l.length)

/-- The `while` loop of `AIPlayer.stimulate` of `main.py`: while the rollout
board `board` is not terminal and fewer than 50 plies have been played, draw
the action list of the current color **from the node's board `nb`** (the
source reads `node.now_board.get_legal_actions(color)`, not the rollout
board), and if it is non-empty play a chosen action on `board` and flip the
color; otherwise flip the color, draw the flipped color's action list (again
from `nb`), play a chosen action on `board`, and flip back.  The increasing
counter `count` with guard `count < 50` is represented by its distance to
the cap, `fuel = 50 - count`, so the guard becomes `fuel ≠ 0` and the
recursion is structural; the loop starts at `fuel = 50`.  Each application
`board._move(action, color)` is additionally recorded in the trace `tr` as
the triple (rollout board at application time, action, color), so that
properties of the moves the loop passes to the board engine can be stated.
`none` embeds the `IndexError` of `random.choice` on an empty list. -/
def simLoop (g : GameOps β μ) (ch : ℕ → ℕ) (nb : β) :
    β → Color → ℕ → List (β × μ × Color) → Option (β × List (β × μ × Color))
  | board, _, 0, tr => some (board, tr)
  | board, colr, n + 1, tr =>
    if game_over g board then some (board, tr)
    else
      let al := g.legal_actions nb colr
      if al.length ≠ 0 then
        match pickFrom (ch (n + 1)) al with
        | none => none
        | some action =>
          simLoop g ch nb (g.move board action colr) colr.flip n
            (tr ++ [(board, action, colr)])
      else
        let colr2 := colr.flip
        let al2 := g.legal_actions nb colr2
        match pickFrom (ch (n + 1)) al2 with
        | none => none
        | some action =>
          simLoop g ch nb (g.move board action colr2) colr2.flip n
            (tr ++ [(board, action, colr2)])

/-- The reward computation at the end of `AIPlayer.stimulate` of `main.py`:
`get_winner` on the final rollout board, then draw (`winner == 2`) gives 0,
black win (`winner == 0`) gives `10 + diff`, otherwise `-(10 + diff)`, and
the result is negated when the engine's own color `self` is `'X'`. -/
def rewardOf (g : GameOps β μ) (fb : β) (self : Color) : ℚ :=
  let w := g.winner fb
  let base : ℚ := if w.1 = 2 then 0 else if w.1 = 0 then 10 + w.2 else -(10 + (w.2 : ℚ))
  if self = Color.X then -base else base

/-- The color a winner code of `get_winner` denotes (`0` = black = `'X'`,
`1` = white = `'O'`, per the code comment in `main.py`); meaningful only for
codes other than `2` (draw).  Used to state the reward sign convention. -/
def winnerColor (w : ℕ) : Color :=
  if w = 0 then Color.X else Color.O

/-- `AIPlayer.stimulate` of `main.py` on a node with board `nb` and color
`colr`, for engine color `self`: deep-copy the node's board (the identity on
board values), run the rollout loop from it, and compute the reward from the
final board; the recorded trace of `_move` applications is returned alongside.
`none` embeds the `IndexError` of `random.choice` on an empty list. -/
def stimulate (g : GameOps β μ) (ch : ℕ → ℕ) (nb : β) (colr : Color)
    (self : Color) : Option (ℚ × List (β × μ × Color)) :=
  (simLoop g ch nb nb colr 50 []).map (fun res => (rewardOf g res.1 self, res.2))

/-- The `for kid in node.children: if kid.visits == 0: return kid` loop of
`AIPlayer.select` of `main.py`, returning the first such kid's index
(`none` embeds the implicit `return None` when the loop falls through). -/
def firstZeroIdx : List (Node β μ) → ℕ → Option ℕ
  | [], _ => none
  | kid :: rest, i => if kid.visits = 0 then some i else firstZeroIdx rest (i + 1)

/-- The arg-max loop duplicated in `AIPlayer.uct` and `AIPlayer.select` of
`main.py`: `max_node = None; max_ucb = -sys.maxsize; for child in children:`
update `max_node`/`max_ucb` whenever `max_ucb < child.get_ucb(ucb_param)`.
The accumulator also records the child's index so the winner can be
addressed by a path. -/
noncomputable def bestChildLoop (pv : ℕ) (c : ℝ) :
    List (Node β μ) → ℕ → ℝ → Option (ℕ × Node β μ) → Option (ℕ × Node β μ)
  | [], _, _, acc => acc
  | child :: rest, i, maxUcb, acc =>
    if maxUcb < child.get_ucb pv c then
      bestChildLoop pv c rest (i + 1) (child.get_ucb pv c) (some (i, child))
    else
      bestChildLoop pv c rest (i + 1) maxUcb acc

/-- The result of `bestChildLoop` is one of the scanned children or the
initial accumulator (needed as the termination measure of `select`). -/
theorem bestChildLoop_mem (pv : ℕ) (c : ℝ) :
    ∀ (l : List (Node β μ)) (i : ℕ) (m : ℝ) (acc : Option (ℕ × Node β μ))
      (jc : ℕ × Node β μ), bestChildLoop pv c l i m acc = some jc →
      jc.2 ∈ l ∨ acc = some jc := by
  intro l
  induction l with
  | nil =>
    intro i m acc jc h
    exact Or.inr h
  | cons child rest ih =>
    intro i m acc jc h
    rw [bestChildLoop] at h
    by_cases hlt : m < child.get_ucb pv c
    · rw [if_pos hlt] at h
      rcases ih _ _ _ _ h with h2 | h2
      · exact Or.inl (List.mem_cons_of_mem _ h2)
      · cases h2
        exact Or.inl (List.mem_cons_self _ _)
    · rw [if_neg hlt] at h
      rcases ih _ _ _ _ h with h2 | h2
      · exact Or.inl (List.mem_cons_of_mem _ h2)
      · exact Or.inr h2

/-- `AIPlayer.select` of `main.py`, returning the path (from the argument
node) of the node a Python reference to the result denotes: a node without
children selects itself; a fully expanded node runs the arg-max loop over
its children and recurses into the winner (if no child beats `-sys.maxsize`
the loop leaves `max_node = None` and the recursive `self.select(None)` call
raises, embedded as `none`); otherwise the first child with zero visits is
returned (if the `for` loop found none, Python falls through returning
`None`, embedded as `none` — unreachable, since a non-fully-expanded node
with children has such a child). -/
noncomputable def select (c : ℝ) (t : Node β μ) : Option (List ℕ) :=
  if t.children.isEmpty then some []
  else if t.full_expanded then
    match h : bestChildLoop t.visits c t.children 0 (-sysMaxsize) none with
    | none => none
    | some ic => (select c ic.2).map (fun p => ic.1 :: p)
  else
    (firstZeroIdx t.children 0).map (fun i => [i])
termination_by sizeOf t
decreasing_by
  rcases bestChildLoop_mem _ _ _ _ _ _ _ h with hmem | hacc
  · calc sizeOf ic.2 < sizeOf t.children := List.sizeOf_lt_of_mem hmem
    _ < sizeOf t := by
        cases t with
        | mk v r b col a kids => simp [Node.children]
  · cases hacc

/-- One iteration of the search loop of `AIPlayer.uct` of `main.py`:
`selected_node = self.select(root)`, `leaf_node = self.extend(selected_node)`,
`reward = self.stimulate(leaf_node)`, `self.backup(leaf_node, reward)`.
`none` embeds an exception escaping the iteration. -/
noncomputable def iter1 (g : GameOps β μ) (ch : ℕ → ℕ) (self : Color) (c : ℝ)
    (t : Node β μ) : Option (Node β μ) :=
  match select c t with
  | none => none
  | some p =>
    let er := extendAt g t p
    match er.1.getAt er.2 with
    | none => none
    | some leaf =>
      match stimulate g ch leaf.now_board leaf.color self with
      | none => none
      | some rw => some (backup self er.1 er.2 rw.1)

/-- The `for i in range(max_times)` search loop of `AIPlayer.uct` of
`main.py`, additionally counting the loop bodies that ran to completion
(the second component); an exception aborts the remaining iterations. -/
noncomputable def uctLoop (g : GameOps β μ) (ch : ℕ → ℕ → ℕ) (self : Color)
    (c : ℝ) : ℕ → ℕ → Node β μ → Option (Node β μ) × ℕ
  | 0, k, t => (some t, k)
  | n + 1, k, t =>
    match iter1 g (ch k) self c t with
    | none => (none, k)
    | some t2 => uctLoop g ch self c n (k + 1) t2

/-- The observable outcome of `AIPlayer.uct` / `AIPlayer.get_move` of
`main.py`. -/
inductive UctResult (μ : Type) : Type where
  /-- `return max_node.action`: the action of the best root child. -/
  | act (a : Option μ)
  /-- `max_node` is still `None` after the decision loop (the root has no
  child with a UCB score above `-sys.maxsize`, in particular no child at
  all), and `max_node.action` raises `AttributeError`. -/
  | noneDereference
  /-- An exception escaped one of the search iterations. -/
  | iterationError
deriving DecidableEq, Repr

/-- `AIPlayer.uct` of `main.py`: run `max_times` search iterations from
`root`, then run the arg-max loop over the root's children and return the
winner's action.  The returned number is how many search-loop bodies ran. -/
noncomputable def uct (g : GameOps β μ) (ch : ℕ → ℕ → ℕ) (self : Color)
    (c : ℝ) (mx : ℕ) (root : Node β μ) : UctResult μ × ℕ :=
  match uctLoop g ch self c mx 0 root with
  | (none, k) => (UctResult.iterationError, k)
  | (some t, k) =>
    match bestChildLoop t.visits c t.children 0 (-sysMaxsize) none with
    | none => (UctResult.noneDereference, k)
    | some ic => (UctResult.act ic.2.act, k)

/-- `self.max_times = 50` from `AIPlayer.__init__` of `main.py`. -/
def max_times : ℕ := 50

/-- `self.ucb_param = 1.5` from `AIPlayer.__init__` of `main.py`. -/
noncomputable def ucb_param : ℝ := 1.5

/-- `AIPlayer.get_move` of `main.py`: build a fresh root holding a deep copy
of the caller's board (the identity on board values) with the engine's own
color, and run `uct` with the configured iteration budget. -/
noncomputable def get_move (g : GameOps β μ) (ch : ℕ → ℕ → ℕ) (self : Color)
    (b : β) : UctResult μ × ℕ :=
  uct g ch self ucb_param max_times (mkRoot b self)

end AIPlayer

/-!
## The store-level embedding

The definitions above embed boards as immutable values, which is sound for
the engine's input/output behaviour but cannot even express the aliasing
discipline of `main.py` (`deepcopy` at the root, at every expansion and at
every rollout, with `_move` mutating a board object in place).  To state
the frame properties, the same operations are embedded a second time
against an explicit heap of board objects: a `Store` maps references
(allocation indices) to board values, `deepcopy` allocates a fresh
reference holding a copy, and `_move` overwrites the referenced cell.
Tree nodes hold references (`Node ℕ μ`) instead of board values. -/

/-- A heap of board objects: `len` references have been allocated;
`mem` gives each reference's current board value. -/
structure Store (γ : Type) where
  len : ℕ
  mem : ℕ → γ

namespace Store

/-- Dereference a board object. -/
def read (s : Store γ) (r : ℕ) : γ := s.mem r

/-- Overwrite a board object in place (`board._move` mutation). -/
def write (s : Store γ) (r : ℕ) (v : γ) : Store γ :=
  ⟨s.len, fun i => if i = r then v else s.mem i⟩

/-- Allocate a fresh board object. -/
def alloc (s : Store γ) (v : γ) : Store γ × ℕ :=
  (⟨s.len + 1, fun i => if i = s.len then v else s.mem i⟩, s.len)

/-- `deepcopy(board)`: allocate a fresh object holding a copy of the
referenced board (board values share no mutable state, so value copy is
the identity). -/
def deepcopy (s : Store γ) (r : ℕ) : Store γ × ℕ :=
  s.alloc (s.read r)

end Store

namespace AIPlayer

/-- One pass of the child-creation loop of the store-level
`AIPlayer.extend`: allocate `new_board = deepcopy(node.now_board)` (the
object at `bref`), mutate it in place via
`new_board._move(action, node.color)`, and append the child node holding
the fresh reference. -/
def extendFoldStep (g : GameOps γ μ) (bref : ℕ) (c : Color)
    (st : Store γ × List (Node ℕ μ)) (action : μ) :
    Store γ × List (Node ℕ μ) :=
  let al := st.1.deepcopy bref
  let s2 := al.1.write al.2 (g.move (al.1.read al.2) action c)
  (s2, st.2 ++ [Node.mk 0 0 al.2 c.flip (some action) []])

/-- Store-level `AIPlayer.extend` body on the node itself (compare
`extend_node`): each child allocates `new_board = deepcopy(node.now_board)`
and then mutates it via `new_board._move(action, node.color)`. -/
def extend_nodeS (g : GameOps γ μ) (s : Store γ) :
    Node ℕ μ → Store γ × Node ℕ μ × Bool
  | .mk v r b c a kids =>
    if v = 0 then (s, .mk v r b c a kids, false)
    else
      let acts := g.legal_actions (s.read b) c
      let res := acts.foldl (extendFoldStep g b c) (s, [])
      let kids' := kids ++ res.2
      (res.1, .mk v r b c a kids', !kids'.isEmpty)

/-- Store-level `AIPlayer.extend` on the node denoted by path `p`
(compare `extendAt`). -/
def extendAtS (g : GameOps γ μ) (s : Store γ) :
    Node ℕ μ → List ℕ → Store γ × Node ℕ μ × List ℕ
  | t, [] =>
    let res := extend_nodeS g s t
    (res.1, res.2.1, if res.2.2 then [0] else [])
  | .mk v r b c a kids, i :: p =>
    match kids[i]? with
    | none => (s, .mk v r b c a kids, i :: p)
    | some child =>
      let res := extendAtS g s child p
      (res.1, .mk v r b c a (kids.set i res.2.1), i :: res.2.2)

/-- Store-level rollout loop of `AIPlayer.stimulate` (compare `simLoop`,
including the `fuel = 50 - count` representation of the counter): the
rollout board is the object at `bRef`, mutated in place by each
`board._move`; action lists are drawn from the node's board object at
`nbRef`, exactly as in the source. -/
def simLoopS (g : GameOps γ μ) (ch : ℕ → ℕ) (nbRef : ℕ) :
    Store γ → ℕ → Color → ℕ → Option (Store γ × ℕ)
  | s, bRef, _, 0 => some (s, bRef)
  | s, bRef, colr, n + 1 =>
    if game_over g (s.read bRef) then some (s, bRef)
    else
      let al := g.legal_actions (s.read nbRef) colr
      if al.length ≠ 0 then
        match pickFrom (ch (n + 1)) al with
        | none => none
        | some action =>
          simLoopS g ch nbRef (s.write bRef (g.move (s.read bRef) action colr))
            bRef colr.flip n
      else
        let colr2 := colr.flip
        let al2 := g.legal_actions (s.read nbRef) colr2
        match pickFrom (ch (n + 1)) al2 with
        | none => none
        | some action =>
          simLoopS g ch nbRef (s.write bRef (g.move (s.read bRef) action colr2))
            bRef colr2.flip n

/-- Store-level `AIPlayer.stimulate` (compare `stimulate`):
`board = deepcopy(node.now_board)` allocates the rollout board, the loop
runs on it, and the reward is computed from its final value. -/
def stimulateS (g : GameOps γ μ) (ch : ℕ → ℕ) (s : Store γ) (nbRef : ℕ)
    (colr self : Color) : Option (Store γ × ℚ) :=
  let c0 := s.deepcopy nbRef
  (simLoopS g ch nbRef c0.1 c0.2 colr 50).map
    (fun res => (res.1, rewardOf g (res.1.read res.2) self))

/-- Store-level search iteration (compare `iter1`); `select` and `backup`
read no board and are shared with the value-level embedding. -/
noncomputable def iter1S (g : GameOps γ μ) (ch : ℕ → ℕ) (self : Color)
    (c : ℝ) (s : Store γ) (t : Node ℕ μ) : Option (Store γ × Node ℕ μ) :=
  match select c t with
  | none => none
  | some p =>
    let er := extendAtS g s t p
    match er.2.1.getAt er.2.2 with
    | none => none
    | some leaf =>
      match stimulateS g ch er.1 leaf.now_board leaf.color self with
      | none => none
      | some sr => some (sr.1, backup self er.2.1 er.2.2 sr.2)

/-- Store-level search loop (compare `uctLoop`). -/
noncomputable def uctLoopS (g : GameOps γ μ) (ch : ℕ → ℕ → ℕ) (self : Color)
    (c : ℝ) : ℕ → Store γ → Node ℕ μ → Option (Store γ × Node ℕ μ)
  | 0, s, t => some (s, t)
  | n + 1, s, t =>
    match iter1S g (ch n) self c s t with
    | none => none
    | some st => uctLoopS g ch self c n st.1 st.2

/-- Store-level `AIPlayer.uct` (compare `uct`), returning the final store
alongside the decision. -/
noncomputable def uctS (g : GameOps γ μ) (ch : ℕ → ℕ → ℕ) (self : Color)
    (c : ℝ) (mx : ℕ) (s : Store γ) (root : Node ℕ μ) :
    Option (Store γ × UctResult μ) :=
  match uctLoopS g ch self c mx s root with
  | none => none
  | some st =>
    match bestChildLoop st.2.visits c st.2.children 0 (-sysMaxsize) none with
    | none => some (st.1, UctResult.noneDereference)
    | some ic => some (st.1, UctResult.act ic.2.act)

/-- Store-level `AIPlayer.get_move` (compare `get_move`): the root holds
`deepcopy(board)`, a fresh object copied from the caller's board object at
`bRef`. -/
noncomputable def get_moveS (g : GameOps γ μ) (ch : ℕ → ℕ → ℕ) (self : Color)
    (s : Store γ) (bRef : ℕ) : Option (Store γ × UctResult μ) :=
  let c0 := s.deepcopy bRef
  uctS g ch self ucb_param max_times c0.1 (mkRoot c0.2 self)

end AIPlayer

/-!
## Concrete game instances

Instances of the external interface used to evaluate the engine on
concrete inputs.  The external game engine is not among the repository
sources, so the claims quantify over every interface implementation;
these small instances witness or refute them. -/

/-- A game whose legal actions depend only on the color and whose winner is
fixed: with both action lists empty it is a terminal position. -/
def constG (acts : Color → List ℕ) (w : ℕ × ℕ) : GameOps Unit ℕ where
  legal_actions := fun _ c => acts c
  move := fun _ _ _ => ()
  winner := fun _ => w

/-- A game where a board is a list of open slots, either color may play any
open slot, and playing a slot closes it: legality genuinely changes as
moves are applied, unlike in `constG`. -/
def slotsG : GameOps (List ℕ) ℕ where
  legal_actions := fun b _ => b
  move := fun b a _ => b.erase a
  winner := fun _ => (2, 0)

/-- A game over an arbitrary board type in which every position is terminal
(no color ever has a legal action); used to run the store-level engine on
concrete stores. -/
def idG (γ : Type) : GameOps γ ℕ where
  legal_actions := fun _ _ => []
  move := fun b _ _ => b
  winner := fun _ => (2, 0)

/-!
## Spec-side predicates

Relations written from the spec's wording, used to state claims against
the source-embedded functions above.
-/

/-- The spec's data-model invariants (§3) as a predicate over whole trees:
every node with `visits == 0` has `reward_sum == 0`, and every non-root
node's color is the opponent of its parent's color. -/
inductive NodeInv : Node β μ → Prop where
  | mk : ∀ t : Node β μ, (t.visits = 0 → t.reward = 0) →
      (∀ k ∈ t.children, k.color = t.color.flip) →
      (∀ k ∈ t.children, NodeInv k) →
      NodeInv t

/-- Trees reachable from a freshly created root by any sequence of the
engine's operations: `extend` at any node and `backup` along any chain with
any reward — a superset of the rewards `stimulate` can produce — while
`select` and `stimulate` do not modify the tree and need no constructor. -/
inductive Reachable (g : GameOps β μ) (self : Color) : Node β μ → Prop where
  | root : ∀ b : β, Reachable g self (mkRoot b self)
  | extendStep : ∀ (t : Node β μ) (p : List ℕ), Reachable g self t →
      Reachable g self (AIPlayer.extendAt g t p).1
  | backupStep : ∀ (t : Node β μ) (p : List ℕ) (rew : ℚ), Reachable g self t →
      Reachable g self (AIPlayer.backup self t p rew)

/-- The spec's description of `Select` (§4.2) as a relation between a node
and the path (relative to that node) of the returned node: a childless node
selects itself; a fully expanded node recurses into the child with the
highest UCB1 score, ties broken by encounter order (every earlier child
scores strictly lower); otherwise the first not-yet-visited child in
insertion order is returned. -/
inductive SelectSpec (cp : ℝ) : Node β μ → List ℕ → Prop where
  | leaf : ∀ t : Node β μ, t.children = [] → SelectSpec cp t []
  | best : ∀ (t : Node β μ) (i : ℕ) (child : Node β μ) (p : List ℕ),
      t.full_expanded = true → t.children[i]? = some child →
      (∀ k ∈ t.children, k.get_ucb t.visits cp ≤ child.get_ucb t.visits cp) →
      (∀ j k, j < i → t.children[j]? = some k →
        k.get_ucb t.visits cp < child.get_ucb t.visits cp) →
      SelectSpec cp child p → SelectSpec cp t (i :: p)
  | firstUnvisited : ∀ (t : Node β μ) (i : ℕ) (child : Node β μ),
      t.children ≠ [] → t.full_expanded = false →
      t.children[i]? = some child → child.visits = 0 →
      (∀ j k, j < i → t.children[j]? = some k → k.visits ≠ 0) →
      SelectSpec cp t [i]

/-- Every node of a tree has all its children's UCB1 scores strictly above
`-sys.maxsize`, the sentinel the arg-max loops start from.  This holds of
every tree a real run can build (unvisited children score `+sys.maxsize`,
and visited children score at least their average reward, far above the
sentinel for rewards of game-margin magnitude), but not of arbitrary
reward values; see the counterexample to C6. -/
inductive ScoresAbove (cp : ℝ) : Node β μ → Prop where
  | mk : ∀ t : Node β μ,
      (∀ k ∈ t.children, -sysMaxsize < k.get_ucb t.visits cp) →
      (∀ k ∈ t.children, ScoresAbove cp k) →
      ScoresAbove cp t

/-- Every board reference held by a store-level tree is an allocated cell of
a store of length `B`: the tree owns no reference into cells allocated
later. -/
inductive RefsBelow (B : ℕ) : Node ℕ μ → Prop where
  | mk : ∀ t : Node ℕ μ, t.now_board < B →
      (∀ k ∈ t.children, RefsBelow B k) →
      RefsBelow B t

/-!
## Helper lemmas
-/

/-- `random.choice` succeeds on a non-empty list. -/
theorem pickFrom_isSome (n : ℕ) (l : List μ) (h : l.length ≠ 0) :
    ∃ a, AIPlayer.pickFrom n l = some a := by
  have hlt : n % l.length < l.length := Nat.mod_lt _ (Nat.pos_of_ne_zero h)
  exact ⟨l.get ⟨_, hlt⟩, List.get?_eq_get hlt⟩

/-- On a non-terminal board, if one color has no legal action then the other
color has one. -/
theorem legal_actions_flip_ne_zero (g : GameOps β μ) (b : β) (colr : Color)
    (hgo : AIPlayer.game_over g b = false)
    (h : (g.legal_actions b colr).length = 0) :
    (g.legal_actions b colr.flip).length ≠ 0 := by
  unfold AIPlayer.game_over at hgo
  rw [List.length_eq_zero] at h
  rw [Bool.and_eq_false_iff] at hgo
  cases colr with
  | X =>
    rcases hgo with hgo | hgo
    · rw [List.isEmpty_eq_false_iff_exists_mem] at hgo
      obtain ⟨x, hx⟩ := hgo
      rw [h] at hx
      cases hx
    · rw [List.isEmpty_eq_false_iff_exists_mem] at hgo
      obtain ⟨x, hx⟩ := hgo
      simp only [Color.flip]
      exact (List.length_pos.mpr (List.ne_nil_of_mem hx)).ne'
  | O =>
    rcases hgo with hgo | hgo
    · rw [List.isEmpty_eq_false_iff_exists_mem] at hgo
      obtain ⟨x, hx⟩ := hgo
      simp only [Color.flip]
      exact (List.length_pos.mpr (List.ne_nil_of_mem hx)).ne'
    · rw [List.isEmpty_eq_false_iff_exists_mem] at hgo
      obtain ⟨x, hx⟩ := hgo
      rw [h] at hx
      cases hx

/-- The rollout loop always returns a final board, and appends at most one
trace entry (one ply) per unit of fuel, provided the node's board is not
terminal (the action lists, all drawn from that fixed node board, can then
never both be empty). -/
theorem simLoop_total (g : GameOps β μ) (ch : ℕ → ℕ) (nb : β)
    (hnb : AIPlayer.game_over g nb = false) :
    ∀ (fuel : ℕ) (board : β) (colr : Color) (tr : List (β × μ × Color)),
      ∃ fb tr2, AIPlayer.simLoop g ch nb board colr fuel tr = some (fb, tr2) ∧
        tr2.length ≤ tr.length + fuel := by
  intro fuel
  induction fuel with
  | zero =>
    intro board colr tr
    exact ⟨board, tr, rfl, by omega⟩
  | succ n ih =>
    intro board colr tr
    rw [AIPlayer.simLoop]
    by_cases hgo : AIPlayer.game_over g board = true
    · rw [if_pos hgo]
      exact ⟨board, tr, rfl, by omega⟩
    · rw [if_neg hgo]
      by_cases hal : (g.legal_actions nb colr).length ≠ 0
      · rw [if_pos hal]
        obtain ⟨a, ha⟩ := pickFrom_isSome (ch (n + 1)) _ hal
        rw [ha]
        obtain ⟨fb, tr2, hs, hlen⟩ := ih (g.move board a colr) colr.flip
          (tr ++ [(board, a, colr)])
        refine ⟨fb, tr2, hs, ?_⟩
        simp only [List.length_append, List.length_cons, List.length_nil] at hlen
        omega
      · rw [if_neg hal]
        push_neg at hal
        have hal2 := legal_actions_flip_ne_zero g nb colr hnb hal
        obtain ⟨a, ha⟩ := pickFrom_isSome (ch (n + 1)) _ hal2
        simp only [ha]
        obtain ⟨fb, tr2, hs, hlen⟩ := ih (g.move board a colr.flip) colr.flip.flip
          (tr ++ [(board, a, colr.flip)])
        refine ⟨fb, tr2, hs, ?_⟩
        simp only [List.length_append, List.length_cons, List.length_nil] at hlen
        omega

/-!
## The claims
-/

/-- C4: for every game interface, choice stream and starting node, the
simulation `stimulate` is total: it returns a reward (never reaching the
`random.choice`-on-empty-list error branch) and its rollout applies at most
50 plies.  When the starting board is terminal the loop exits at once;
otherwise the node's board — from which both action lists of every
iteration are drawn — is non-terminal, so whenever the current color's list
is empty the flipped color's list is not, and no step selects from an empty
list (in particular the "opponent also has no move" situation never arises
inside the loop). -/
theorem claim_C4 (g : GameOps β μ) (ch : ℕ → ℕ) (nb : β) (colr self : Color) :
    ∃ rw tr, AIPlayer.stimulate g ch nb colr self = some (rw, tr) ∧
      tr.length ≤ 50 := by
  unfold AIPlayer.stimulate
  by_cases hnb : AIPlayer.game_over g nb = true
  · rw [AIPlayer.simLoop, if_pos hnb]
    exact ⟨_, [], rfl, by simp⟩
  · rw [Bool.not_eq_true] at hnb
    obtain ⟨fb, tr2, hs, hlen⟩ := simLoop_total g ch nb hnb 50 nb colr []
    rw [hs]
    exact ⟨_, tr2, rfl, by simpa using hlen⟩

/-- C2 (amended): the reward `stimulate` returns is computed by `rewardOf`
from the final rollout board: 0 on a draw, magnitude `10 + margin`
otherwise, and its sign is **inverted** relative to the engine's own player:
the reward is positive exactly when the winner is the *opponent* of the
engine's own color (the winner-code branches in the source are swapped and
the final `if self.color == 'X'` negation makes the result
opponent-relative for both engine colors; `backup`'s color-conditional sign
flip compensates downstream). -/
theorem claim_C2 (g : GameOps β μ) (ch : ℕ → ℕ) (nb fb : β) (colr self : Color)
    (w d : ℕ) (hw : g.winner fb = (w, d)) :
    AIPlayer.stimulate g ch nb colr self =
      (AIPlayer.simLoop g ch nb nb colr 50 []).map
        (fun res => (AIPlayer.rewardOf g res.1 self, res.2)) ∧
    (w = 2 → AIPlayer.rewardOf g fb self = 0) ∧
    (w ≠ 2 → |AIPlayer.rewardOf g fb self| = 10 + (d : ℚ)) ∧
    (w ≠ 2 →
      (0 < AIPlayer.rewardOf g fb self ↔ AIPlayer.winnerColor w ≠ self)) := by
  have hd : (0 : ℚ) < 10 + (d : ℚ) := by positivity
  have hr : AIPlayer.rewardOf g fb self =
      if self = Color.X
      then -(if w = 2 then (0 : ℚ) else if w = 0 then 10 + (d : ℚ)
             else -(10 + (d : ℚ)))
      else (if w = 2 then (0 : ℚ) else if w = 0 then 10 + (d : ℚ)
            else -(10 + (d : ℚ))) := by
    unfold AIPlayer.rewardOf
    rw [hw]
  unfold AIPlayer.winnerColor
  refine ⟨rfl, ?_, ?_, ?_⟩
  · intro h2
    rw [hr, if_pos h2]
    cases self <;> norm_num
  · intro h2
    rw [hr, if_neg h2]
    by_cases h0 : w = 0
    · rw [if_pos h0]
      cases self with
      | X =>
        rw [if_pos rfl, abs_neg, abs_of_pos hd]
      | O =>
        rw [if_neg (by decide), abs_of_pos hd]
    · rw [if_neg h0]
      cases self with
      | X =>
        rw [if_pos rfl, neg_neg, abs_of_pos hd]
      | O =>
        rw [if_neg (by decide), abs_neg, abs_of_pos hd]
  · intro h2
    rw [hr, if_neg h2]
    by_cases h0 : w = 0
    · rw [if_pos h0, if_pos h0]
      cases self with
      | X =>
        rw [if_pos rfl]
        constructor
        · intro hlt
          linarith
        · intro hne
          exact absurd rfl hne
      | O =>
        rw [if_neg (by decide)]
        constructor
        · intro _
          decide
        · intro _
          exact hd
    · rw [if_neg h0, if_neg h0]
      cases self with
      | X =>
        rw [if_pos rfl, neg_neg]
        constructor
        · intro _
          decide
        · intro _
          exact hd
      | O =>
        rw [if_neg (by decide)]
        constructor
        · intro hlt
          linarith
        · intro hne
          exact absurd rfl hne

/-- C2, counterexample to the claim as stated: on a terminal board whose
winner code is 0 — black, i.e. `'X'`, wins by 5 — with the engine itself
managing `'X'`, the rollout ends at once and `stimulate` returns `-15`:
the outcome favors the engine's own player, yet the reward is negative,
not positive as the claim requires. -/
theorem claim_C2_cex :
    (constG (fun _ => []) (0, 5)).winner () = (0, 5) ∧
    AIPlayer.winnerColor 0 = Color.X ∧
    AIPlayer.stimulate (constG (fun _ => []) (0, 5)) (fun _ => 0) ()
      Color.X Color.X = some (-15, []) ∧
    (-15 : ℚ) < 0 := by
  have h0 : AIPlayer.simLoop (constG (fun _ => []) (0, 5)) (fun _ => 0) () ()
      Color.X 50 [] = some ((), []) := by
    rw [AIPlayer.simLoop]
    rfl
  refine ⟨rfl, rfl, ?_, by norm_num⟩
  unfold AIPlayer.stimulate
  rw [h0]
  show some (AIPlayer.rewardOf (constG (fun _ => []) (0, 5)) () Color.X,
    ([] : List (Unit × ℕ × Color))) = some (-15, [])
  have hrw : AIPlayer.rewardOf (constG (fun _ => []) (0, 5)) () Color.X = -15 := by
    unfold AIPlayer.rewardOf
    norm_num [constG]
  rw [hrw]

/-- C2, witness for the amended theorem at a concrete input: the terminal
board of `claim_C2_cex`. -/
theorem claim_C2_witness :
    (0 : ℕ) ≠ 2 ∧
    (0 < AIPlayer.rewardOf (constG (fun _ => []) (0, 5)) () Color.X ↔
      AIPlayer.winnerColor 0 ≠ Color.X) :=
  ⟨by norm_num,
    (claim_C2 (constG (fun _ => []) (0, 5)) (fun _ => 0) () () Color.X Color.X
      0 5 rfl).2.2.2 (by norm_num)⟩

/-- C3: the claim fails on the code, which draws every rollout move from the
legal actions of the *node's* board (`node.now_board`) while applying it to
the evolving rollout board.  In the slot game, from node board `[0, 1]`, the
rollout's second ply applies action `0` to the rollout board `[1]`, where it
is not legal (slot `0` was already taken by the first ply): `apply_move`
receives an illegal move for the position it is applied to. -/
theorem claim_C3 :
    ∃ rt, AIPlayer.stimulate slotsG (fun _ => 0) [0, 1] Color.X Color.X =
        some rt ∧
      rt.2.get? 1 = some ([1], 0, Color.O) ∧
      (0 : ℕ) ∉ slotsG.legal_actions [1] Color.O := by
  have h : ((AIPlayer.stimulate slotsG (fun _ => 0) [0, 1] Color.X
      Color.X).map (fun rt => rt.2.get? 1)) = some (some ([1], 0, Color.O)) := by
    decide
  cases hst : AIPlayer.stimulate slotsG (fun _ => 0) [0, 1] Color.X Color.X with
  | none =>
    rw [hst] at h
    cases h
  | some rt =>
    rw [hst] at h
    refine ⟨rt, rfl, ?_, by decide⟩
    simpa using h

/-- C7 (amended): on a node with **no pre-existing children** — as holds for
every node the engine ever expands — `extend` behaves as claimed: a node
with `visits == 0` is returned unchanged; otherwise one child per legal move
of the node's color on the node's board is created by
deep-copy-then-apply-move with the opponent's color and fresh statistics,
and the call returns the node itself when no legal move exists and the first
created child otherwise.  (On a node with pre-existing children the source
instead tests and returns the head of the *combined* children list; see the
counterexample.) -/
theorem claim_C7 (g : GameOps β μ) (v : ℕ) (r : ℚ) (b : β) (c : Color)
    (a : Option μ) :
    (v = 0 → AIPlayer.extendAt g (Node.mk v r b c a []) [] =
      (Node.mk v r b c a [], [])) ∧
    (v ≠ 0 →
      (AIPlayer.extendAt g (Node.mk v r b c a []) []).1 =
        Node.mk v r b c a ((g.legal_actions b c).map
          (fun act => Node.mk 0 0 (g.move b act c) c.flip (some act) [])) ∧
      (AIPlayer.extendAt g (Node.mk v r b c a []) []).2 =
        (if (g.legal_actions b c).isEmpty then [] else [0])) := by
  constructor
  · intro h0
    simp only [AIPlayer.extendAt, AIPlayer.extend_node, if_pos h0]
    rfl
  · intro h0
    simp only [AIPlayer.extendAt, AIPlayer.extend_node, if_neg h0,
      List.nil_append]
    refine ⟨trivial, ?_⟩
    cases hleg : (g.legal_actions b c).isEmpty with
    | true =>
      rw [List.isEmpty_iff] at hleg
      simp [hleg]
    | false =>
      have hne : (g.legal_actions b c).map
          (fun act => Node.mk 0 0 (g.move b act c) c.flip (some act) []) ≠ [] := by
        intro hcon
        rw [List.map_eq_nil_iff] at hcon
        rw [hcon] at hleg
        cases hleg
      simp [hne, hleg]

/-- C7, counterexample to the claim as stated: a node with one pre-existing
child, `visits = 1` and no legal move.  The claim requires `extend` to
return the node itself (path `[]`); the source tests `len(node.children)`
on the combined list and returns `node.children[0]` — the pre-existing
child, path `[0]`. -/
theorem claim_C7_cex :
    AIPlayer.extendAt (constG (fun _ => []) (2, 0))
      (Node.mk 1 0 () Color.X none [Node.mk 1 0 () Color.O (some 7) []]) [] =
      (Node.mk 1 0 () Color.X none [Node.mk 1 0 () Color.O (some 7) []], [0]) ∧
    (constG (fun _ => []) (2, 0)).legal_actions () Color.X = [] ∧
    ([0] : List ℕ) ≠ ([] : List ℕ) := by
  refine ⟨rfl, rfl, by decide⟩

/-- C7, witness for the amended theorem at a concrete input: a childless
visited node with exactly one legal move. -/
theorem claim_C7_witness :
    (AIPlayer.extendAt (constG (fun _ => [7]) (2, 0))
        (Node.mk 1 0 () Color.X none []) []).1 =
      Node.mk 1 0 () Color.X none [Node.mk 0 0 () Color.O (some 7) []] ∧
    (AIPlayer.extendAt (constG (fun _ => [7]) (2, 0))
        (Node.mk 1 0 () Color.X none []) []).2 = [0] := by
  have h := (claim_C7 (constG (fun _ => [7]) (2, 0)) 1 0 () Color.X none).2
    (by norm_num)
  constructor
  · rw [h.1]
    rfl
  · rw [h.2]
    rfl

/-- C8: `backup` from the node at path `p` (the leaf) modifies exactly the
nodes on the chain from that node up to the root — the nodes at the
prefixes of `p` — incrementing each node's `visits` by exactly 1 and adding
the reward to its `reward` when the node's color is the engine's own color,
subtracting it otherwise; the board, color, action and number of children
of chain nodes, and every node off the chain (its whole subtree), are left
unmodified. -/
theorem claim_C8 (self : Color) (t : Node β μ) (p q : List ℕ) (rew : ℚ) :
    (¬ q <+: p →
      Node.getAt (AIPlayer.backup self t p rew) q = Node.getAt t q) ∧
    (∀ n, q <+: p → Node.getAt t q = some n →
      ∃ n2, Node.getAt (AIPlayer.backup self t p rew) q = some n2 ∧
        n2.visits = n.visits + 1 ∧
        n2.reward = (if n.color = self then n.reward + rew else n.reward - rew) ∧
        n2.now_board = n.now_board ∧ n2.color = n.color ∧ n2.act = n.act ∧
        n2.children.length = n.children.length) := by
  induction p generalizing t q with
  | nil =>
    cases t with
    | mk v r b c a kids =>
      constructor
      · intro hq
        cases q with
        | nil => exact absurd List.prefix_rfl hq
        | cons j q2 =>
          simp [AIPlayer.backup, Node.getAt, Node.children]
      · intro n hq hget
        rw [List.prefix_nil] at hq
        subst hq
        simp only [Node.getAt, Option.some.injEq] at hget
        subst hget
        exact ⟨_, rfl, rfl, rfl, rfl, rfl, rfl, rfl⟩
  | cons i p2 ih =>
    cases t with
    | mk v r b c a kids =>
      constructor
      · intro hq
        cases q with
        | nil => exact absurd List.nil_prefix hq
        | cons j q2 =>
          by_cases hij : j = i
          · subst hij
            have hq2 : ¬ q2 <+: p2 := fun hc =>
              hq (List.cons_prefix_cons.mpr ⟨rfl, hc⟩)
            cases hki : kids[j]? with
            | none =>
              simp [AIPlayer.backup, Node.getAt, Node.children, hki]
            | some child =>
              have hset : (kids.set j (AIPlayer.backup self child p2 rew))[j]?
                  = some (AIPlayer.backup self child p2 rew) := by
                rw [List.getElem?_set_self', hki]
                rfl
              simp only [AIPlayer.backup, Node.getAt, Node.children, hki, hset]
              exact (ih child q2).1 hq2
          · cases hki : kids[i]? with
            | none =>
              simp [AIPlayer.backup, Node.getAt, Node.children, hki]
            | some child =>
              have hset : (kids.set i (AIPlayer.backup self child p2 rew))[j]?
                  = kids[j]? := List.getElem?_set_ne (fun hc => hij hc.symm)
              simp only [AIPlayer.backup, Node.getAt, Node.children, hki, hset]
      · intro n hq hget
        cases q with
        | nil =>
          simp only [Node.getAt, Option.some.injEq] at hget
          subst hget
          exact ⟨_, rfl, rfl, rfl, rfl, rfl, rfl, by
            simp only [AIPlayer.backup, Node.children]
            cases hki : kids[i]? with
            | none => rfl
            | some child => simp [List.length_set]⟩
        | cons j q2 =>
          obtain ⟨hj, hq2⟩ := List.cons_prefix_cons.mp hq
          subst hj
          cases hki : kids[j]? with
          | none =>
            simp only [Node.getAt, Node.children, hki] at hget
            cases hget
          | some child =>
            simp only [Node.getAt, Node.children, hki] at hget
            have hset : (kids.set j (AIPlayer.backup self child p2 rew))[j]?
                = some (AIPlayer.backup self child p2 rew) := by
              rw [List.getElem?_set_self', hki]
              rfl
            obtain ⟨n2, hn2, hfields⟩ := (ih child q2).2 n hq2 hget
            refine ⟨n2, ?_, hfields⟩
            simp only [AIPlayer.backup, Node.getAt, Node.children, hki, hset]
            exact hn2

/-- C8, witness at a concrete input: backing a reward of 7 up from the root
itself (path `[]`, the parent chain is just the root) increments its visits
to 1 and, the root's color being the engine's own, adds 7 to its reward. -/
theorem claim_C8_witness :
    ∃ n2, Node.getAt (AIPlayer.backup Color.X
        (Node.mk 0 0 () Color.X (none : Option ℕ) []) [] 7) [] = some n2 ∧
      n2.visits = 1 ∧ n2.reward = 7 := by
  obtain ⟨n2, hget, hv, hr, _⟩ :=
    (claim_C8 Color.X (Node.mk 0 0 () Color.X (none : Option ℕ) []) [] [] 7).2
      (Node.mk 0 0 () Color.X none []) List.prefix_rfl rfl
  refine ⟨n2, hget, ?_, ?_⟩
  · rw [hv]
    simp [Node.visits]
  · rw [hr]
    simp [Node.color, Node.reward]

/-- `backup` never changes the color of the node it starts from. -/
theorem backup_color (self : Color) (t : Node β μ) (p : List ℕ) (rew : ℚ) :
    (AIPlayer.backup self t p rew).color = t.color := by
  cases t with
  | mk v r b c a kids => cases p <;> rfl

/-- `backup` preserves the data-model invariants. -/
theorem backup_NodeInv (self : Color) :
    ∀ (p : List ℕ) (t : Node β μ) (rew : ℚ),
      NodeInv t → NodeInv (AIPlayer.backup self t p rew) := by
  intro p
  induction p with
  | nil =>
    intro t rew h
    cases t with
    | mk v r b c a kids =>
      cases h with
      | mk _ h1 h2 h3 =>
        refine NodeInv.mk _ ?_ ?_ ?_
        · intro hc
          simp [AIPlayer.backup, Node.visits] at hc
        · exact h2
        · exact h3
  | cons i p2 ih =>
    intro t rew h
    cases t with
    | mk v r b c a kids =>
      cases h with
      | mk _ h1 h2 h3 =>
        refine NodeInv.mk _ ?_ ?_ ?_
        · intro hc
          simp [AIPlayer.backup, Node.visits] at hc
        · show ∀ k ∈ (AIPlayer.backup self (Node.mk v r b c a kids) (i :: p2)
            rew).children, k.color = c.flip
          simp only [AIPlayer.backup, Node.children]
          cases hki : kids[i]? with
          | none =>
            simp only [hki]
            exact h2
          | some child =>
            simp only [hki]
            intro k hk
            rcases List.mem_or_eq_of_mem_set hk with hk2 | hk2
            · exact h2 k hk2
            · subst hk2
              rw [backup_color]
              exact h2 child (List.getElem?_mem hki)
        · show ∀ k ∈ (AIPlayer.backup self (Node.mk v r b c a kids) (i :: p2)
            rew).children, NodeInv k
          simp only [AIPlayer.backup, Node.children]
          cases hki : kids[i]? with
          | none =>
            simp only [hki]
            exact h3
          | some child =>
            simp only [hki]
            intro k hk
            rcases List.mem_or_eq_of_mem_set hk with hk2 | hk2
            · exact h3 k hk2
            · subst hk2
              exact ih child rew (h3 child (List.getElem?_mem hki))

/-- `extend` never changes the color of the node it is applied at. -/
theorem extendAt_color (g : GameOps β μ) (t : Node β μ) (p : List ℕ) :
    (AIPlayer.extendAt g t p).1.color = t.color := by
  cases t with
  | mk v r b c a kids =>
    cases p with
    | nil =>
      show (AIPlayer.extend_node g (Node.mk v r b c a kids)).1.color = c
      unfold AIPlayer.extend_node
      dsimp only
      by_cases hv : v = 0
      · rw [if_pos hv]
        rfl
      · rw [if_neg hv]
        rfl
    | cons i p2 =>
      show (AIPlayer.extendAt g (Node.mk v r b c a kids) (i :: p2)).1.color = c
      simp only [AIPlayer.extendAt]
      cases hki : kids[i]? <;> simp only [hki] <;> rfl

/-- `extend` preserves the data-model invariants: created children carry
the flipped color and fresh statistics. -/
theorem extendAt_NodeInv (g : GameOps β μ) :
    ∀ (p : List ℕ) (t : Node β μ),
      NodeInv t → NodeInv (AIPlayer.extendAt g t p).1 := by
  intro p
  induction p with
  | nil =>
    intro t h
    cases t with
    | mk v r b c a kids =>
      cases h with
      | mk _ h1 h2 h3 =>
        show NodeInv (AIPlayer.extend_node g (Node.mk v r b c a kids)).1
        unfold AIPlayer.extend_node
        dsimp only
        by_cases hv : v = 0
        · rw [if_pos hv]
          exact NodeInv.mk _ h1 h2 h3
        · rw [if_neg hv]
          refine NodeInv.mk _ ?_ ?_ ?_
          · intro hc
            simp [Node.visits] at hc
            exact absurd hc hv
          · intro k hk
            rcases List.mem_append.mp hk with hk2 | hk2
            · exact h2 k hk2
            · obtain ⟨act, _, hact⟩ := List.mem_map.mp hk2
              subst hact
              rfl
          · intro k hk
            rcases List.mem_append.mp hk with hk2 | hk2
            · exact h3 k hk2
            · obtain ⟨act, _, hact⟩ := List.mem_map.mp hk2
              subst hact
              refine NodeInv.mk _ (fun _ => rfl) ?_ ?_
              · intro k2 hk2
                cases hk2
              · intro k2 hk2
                cases hk2
  | cons i p2 ih =>
    intro t h
    cases t with
    | mk v r b c a kids =>
      cases h with
      | mk _ h1 h2 h3 =>
        show NodeInv (AIPlayer.extendAt g (Node.mk v r b c a kids) (i :: p2)).1
        simp only [AIPlayer.extendAt]
        cases hki : kids[i]? with
        | none =>
          simp only [hki]
          exact NodeInv.mk _ h1 h2 h3
        | some child =>
          simp only [hki]
          refine NodeInv.mk _ h1 ?_ ?_
          · intro k hk
            simp only [Node.children] at hk
            rcases List.mem_or_eq_of_mem_set hk with hk2 | hk2
            · exact h2 k hk2
            · subst hk2
              rw [extendAt_color]
              exact h2 child (List.getElem?_mem hki)
          · intro k hk
            simp only [Node.children] at hk
            rcases List.mem_or_eq_of_mem_set hk with hk2 | hk2
            · exact h3 k hk2
            · subst hk2
              exact ih child (h3 child (List.getElem?_mem hki))

/-- C9: in every tree reachable from a freshly created root by the engine's
tree operations (`select` and `stimulate` do not modify the tree; `extend`
may act at any node, `backup` along any chain with any reward), every
non-root node's color is the opponent of its parent's color, and every node
with `visits == 0` has `reward == 0`. -/
theorem claim_C9 (g : GameOps β μ) (self : Color) (t : Node β μ)
    (h : Reachable g self t) : NodeInv t := by
  induction h with
  | root b =>
    refine NodeInv.mk _ (fun _ => rfl) ?_ ?_
    · intro k hk
      cases hk
    · intro k hk
      cases hk
  | extendStep t p _ ih => exact extendAt_NodeInv g p t ih
  | backupStep t p rew _ ih => exact backup_NodeInv self p t rew ih

/-- C9, witness at a concrete input: the invariants hold of a freshly
created root, via its reachability. -/
theorem claim_C9_witness :
    NodeInv (mkRoot () Color.X : Node Unit ℕ) :=
  claim_C9 (constG (fun _ => []) (2, 0)) Color.X _ (Reachable.root ())

/-- C5: the UCB1 score of a node with zero visits is `sys.maxsize`
(`2^63 - 1`, the maximum representable value); the score of a visited node
is `reward / visits + C * sqrt(2 * ln(parent_visits) / visits)` with the
engine's exploration constant `C = ucb_param = 1.5`; and under bounds any
run satisfies (per-node average reward magnitude at most some `B ≤ 2^62`,
parent visits at most `2^63`) a visited node scores strictly below an
unvisited one, so an unvisited node is always selected over any visited
sibling. -/
theorem claim_C5 (pv pv2 v : ℕ) (r r2 : ℚ) (b b2 : β) (c c2 : Color)
    (a a2 : Option μ) (kids kids2 : List (Node β μ)) (B : ℝ)
    (hv : 0 < v) (hr : |(r : ℝ)| ≤ B * v) (hB : B ≤ 2 ^ 62)
    (hpv : (pv : ℝ) ≤ 2 ^ 63) :
    (Node.mk 0 r2 b2 c2 a2 kids2).get_ucb pv2 AIPlayer.ucb_param = sysMaxsize ∧
    (Node.mk v r b c a kids).get_ucb pv AIPlayer.ucb_param =
      (r : ℝ) / (v : ℕ) + 1.5 * Real.sqrt (2 * Real.log (pv : ℕ) / (v : ℕ)) ∧
    (Node.mk v r b c a kids).get_ucb pv AIPlayer.ucb_param <
      (Node.mk 0 r2 b2 c2 a2 kids2).get_ucb pv2 AIPlayer.ucb_param := by
  have hv' : (0 : ℝ) < (v : ℕ) := by exact_mod_cast hv
  have hv1 : (1 : ℝ) ≤ (v : ℕ) := by exact_mod_cast hv
  have h1 : (Node.mk 0 r2 b2 c2 a2 kids2).get_ucb pv2 AIPlayer.ucb_param
      = sysMaxsize := by
    simp [Node.get_ucb, Node.visits]
  have h2 : (Node.mk v r b c a kids).get_ucb pv AIPlayer.ucb_param =
      (r : ℝ) / (v : ℕ) + 1.5 * Real.sqrt (2 * Real.log (pv : ℕ) / (v : ℕ)) := by
    rw [Node.get_ucb, if_neg (by simpa [Node.visits] using hv.ne')]
    rw [AIPlayer.ucb_param]
    rfl
  refine ⟨h1, h2, ?_⟩
  rw [h1, h2]
  have hdiv : (r : ℝ) / (v : ℕ) ≤ B := by
    have step1 : (r : ℝ) / (v : ℕ) ≤ |(r : ℝ)| / (v : ℕ) :=
      (div_le_div_right hv').mpr (le_abs_self _)
    have step2 : |(r : ℝ)| / (v : ℕ) ≤ B := (div_le_iff hv').mpr hr
    linarith
  have hsqarg : 2 * Real.log (pv : ℕ) / (v : ℕ) ≤ 2 * 2 ^ 63 := by
    rcases Nat.eq_zero_or_pos pv with hp | hp
    · subst hp
      simp only [Nat.cast_zero, Real.log_zero, mul_zero, zero_div]
      positivity
    · have hp1 : (1 : ℝ) ≤ (pv : ℕ) := by exact_mod_cast hp
      have hlog0 : 0 ≤ Real.log (pv : ℕ) := Real.log_nonneg hp1
      have hlog : Real.log (pv : ℕ) ≤ (pv : ℕ) :=
        le_trans (Real.log_le_sub_one_of_pos (by linarith)) (by linarith)
      calc 2 * Real.log (pv : ℕ) / (v : ℕ) ≤ 2 * Real.log (pv : ℕ) :=
            div_le_self (by positivity) hv1
        _ ≤ 2 * (pv : ℕ) := by linarith
        _ ≤ 2 * 2 ^ 63 := by linarith
  have hsqrt : Real.sqrt (2 * Real.log (pv : ℕ) / (v : ℕ)) ≤ 2 ^ 32 := by
    calc Real.sqrt (2 * Real.log (pv : ℕ) / (v : ℕ))
        ≤ Real.sqrt (2 * 2 ^ 63) := Real.sqrt_le_sqrt hsqarg
      _ = 2 ^ 32 := by
          rw [show (2 : ℝ) * 2 ^ 63 = (2 ^ 32) ^ 2 by norm_num]
          exact Real.sqrt_sq (by positivity)
  have hfinal : (1.5 : ℝ) * Real.sqrt (2 * Real.log (pv : ℕ) / (v : ℕ))
      ≤ 1.5 * 2 ^ 32 := by
    have h15 : (0 : ℝ) ≤ 1.5 := by norm_num
    exact mul_le_mul_of_nonneg_left hsqrt h15
  rw [sysMaxsize]
  have hnum : (2 : ℝ) ^ 62 + 1.5 * 2 ^ 32 < 2 ^ 63 - 1 := by norm_num
  linarith

/-- C5, witness at a concrete input: parent visits 1, a visited node with
one visit and zero reward against an unvisited sibling. -/
theorem claim_C5_witness :
    (Node.mk 0 (0 : ℚ) () Color.X (none : Option ℕ) []).get_ucb 1
        AIPlayer.ucb_param = sysMaxsize ∧
    (Node.mk 1 (0 : ℚ) () Color.X (none : Option ℕ) []).get_ucb 1
        AIPlayer.ucb_param =
      ((0 : ℚ) : ℝ) / ((1 : ℕ) : ℝ) +
        1.5 * Real.sqrt (2 * Real.log ((1 : ℕ) : ℝ) / ((1 : ℕ) : ℝ)) ∧
    (Node.mk 1 (0 : ℚ) () Color.X (none : Option ℕ) []).get_ucb 1
        AIPlayer.ucb_param <
      (Node.mk 0 (0 : ℚ) () Color.X (none : Option ℕ) []).get_ucb 1
        AIPlayer.ucb_param :=
  claim_C5 1 1 1 0 0 () () Color.X Color.X none none [] [] 0
    (by norm_num) (by norm_num) (by norm_num) (by norm_num)

/-- If no scanned child beats the running maximum, the arg-max loop returns
its accumulator unchanged. -/
theorem bestChildLoop_all_le (pv : ℕ) (cp : ℝ) :
    ∀ (l : List (Node β μ)) (i : ℕ) (m : ℝ) (acc : Option (ℕ × Node β μ)),
      (∀ k ∈ l, k.get_ucb pv cp ≤ m) →
      AIPlayer.bestChildLoop pv cp l i m acc = acc := by
  intro l
  induction l with
  | nil =>
    intro i m acc _
    rfl
  | cons child rest ih =>
    intro i m acc h
    rw [AIPlayer.bestChildLoop,
      if_neg (not_lt.mpr (h child (List.mem_cons_self _ _)))]
    exact ih _ _ _ (fun k hk => h k (List.mem_cons_of_mem _ hk))

/-- If some scanned child beats the running maximum `m`, the arg-max loop
returns the first child attaining the maximal score: its score beats `m`,
no child scores higher, and every earlier child scores strictly lower. -/
theorem bestChildLoop_max (pv : ℕ) (cp : ℝ) :
    ∀ (l : List (Node β μ)) (i0 : ℕ) (m : ℝ) (acc : Option (ℕ × Node β μ)),
      (∃ k ∈ l, m < k.get_ucb pv cp) →
      ∃ j child, AIPlayer.bestChildLoop pv cp l i0 m acc = some (i0 + j, child) ∧
        l[j]? = some child ∧ m < child.get_ucb pv cp ∧
        (∀ k ∈ l, k.get_ucb pv cp ≤ child.get_ucb pv cp) ∧
        (∀ j2 k, j2 < j → l[j2]? = some k →
          k.get_ucb pv cp < child.get_ucb pv cp) := by
  intro l
  induction l with
  | nil =>
    rintro i0 m acc ⟨k, hk, _⟩
    cases hk
  | cons child rest ih =>
    intro i0 m acc hex
    rw [AIPlayer.bestChildLoop]
    by_cases hlt : m < child.get_ucb pv cp
    · rw [if_pos hlt]
      by_cases hex2 : ∃ k ∈ rest, child.get_ucb pv cp < k.get_ucb pv cp
      · obtain ⟨j, c2, hres, hget, hgt, hmax, hearlier⟩ :=
          ih (i0 + 1) _ (some (i0, child)) hex2
        have hidx : i0 + 1 + j = i0 + (j + 1) := by omega
        rw [hidx] at hres
        refine ⟨j + 1, c2, hres, by simpa using hget, lt_trans hlt hgt, ?_, ?_⟩
        · intro k hk
          rcases List.mem_cons.mp hk with hk2 | hk2
          · subst hk2
            exact le_of_lt hgt
          · exact hmax k hk2
        · intro j2 k hj2 hgetk
          cases j2 with
          | zero =>
            simp only [List.getElem?_cons_zero, Option.some.injEq] at hgetk
            subst hgetk
            exact hgt
          | succ j3 =>
            simp only [List.getElem?_cons_succ] at hgetk
            exact hearlier j3 k (by omega) hgetk
      · push_neg at hex2
        rw [bestChildLoop_all_le pv cp rest (i0 + 1) _ _ hex2]
        refine ⟨0, child, by rw [Nat.add_zero], List.getElem?_cons_zero, hlt, ?_, ?_⟩
        · intro k hk
          rcases List.mem_cons.mp hk with hk2 | hk2
          · subst hk2
            exact le_refl _
          · exact hex2 k hk2
        · intro j2 k hj2 _
          omega
    · rw [if_neg hlt]
      have hex2 : ∃ k ∈ rest, m < k.get_ucb pv cp := by
        obtain ⟨k, hk, hgt⟩ := hex
        rcases List.mem_cons.mp hk with hk2 | hk2
        · subst hk2
          exact absurd hgt hlt
        · exact ⟨k, hk2, hgt⟩
      obtain ⟨j, c2, hres, hget, hgt, hmax, hearlier⟩ := ih (i0 + 1) m acc hex2
      have hidx : i0 + 1 + j = i0 + (j + 1) := by omega
      rw [hidx] at hres
      refine ⟨j + 1, c2, hres, by simpa using hget, hgt, ?_, ?_⟩
      · intro k hk
        rcases List.mem_cons.mp hk with hk2 | hk2
        · subst hk2
          exact le_trans (not_lt.mp hlt) (le_of_lt hgt)
        · exact hmax k hk2
      · intro j2 k hj2 hgetk
        cases j2 with
        | zero =>
          simp only [List.getElem?_cons_zero, Option.some.injEq] at hgetk
          subst hgetk
          exact lt_of_le_of_lt (not_lt.mp hlt) hgt
        | succ j3 =>
          simp only [List.getElem?_cons_succ] at hgetk
          exact hearlier j3 k (by omega) hgetk

/-- If some child is unvisited, the first-zero-visits scan returns the index
of the first one. -/
theorem firstZeroIdx_spec :
    ∀ (l : List (Node β μ)) (i0 : ℕ), (∃ k ∈ l, k.visits = 0) →
      ∃ j child, AIPlayer.firstZeroIdx l i0 = some (i0 + j) ∧
        l[j]? = some child ∧ child.visits = 0 ∧
        (∀ j2 k, j2 < j → l[j2]? = some k → k.visits ≠ 0) := by
  intro l
  induction l with
  | nil =>
    rintro i0 ⟨k, hk, _⟩
    cases hk
  | cons child rest ih =>
    intro i0 hex
    rw [AIPlayer.firstZeroIdx]
    by_cases hz : child.visits = 0
    · rw [if_pos hz]
      refine ⟨0, child, by rw [Nat.add_zero], List.getElem?_cons_zero, hz, ?_⟩
      intro j2 k hj2 _
      omega
    · rw [if_neg hz]
      have hex2 : ∃ k ∈ rest, k.visits = 0 := by
        obtain ⟨k, hk, hzk⟩ := hex
        rcases List.mem_cons.mp hk with hk2 | hk2
        · subst hk2
          exact absurd hzk hz
        · exact ⟨k, hk2, hzk⟩
      obtain ⟨j, c2, hres, hget, hzc, hearlier⟩ := ih (i0 + 1) hex2
      have hidx : i0 + 1 + j = i0 + (j + 1) := by omega
      rw [hidx] at hres
      refine ⟨j + 1, c2, hres, by simpa using hget, hzc, ?_⟩
      intro j2 k hj2 hgetk
      cases j2 with
      | zero =>
        simp only [List.getElem?_cons_zero, Option.some.injEq] at hgetk
        subst hgetk
        exact hz
      | succ j3 =>
        simp only [List.getElem?_cons_succ] at hgetk
        exact hearlier j3 k (by omega) hgetk

/-- A child is structurally smaller than its parent node. -/
theorem sizeOf_child_lt (t k : Node β μ) (hk : k ∈ t.children) :
    sizeOf k < sizeOf t := by
  calc sizeOf k < sizeOf t.children := List.sizeOf_lt_of_mem hk
    _ < sizeOf t := by
        cases t with
        | mk v r b c a kids => simp [Node.children]

/-- C6 (amended): provided every child's UCB1 score throughout the tree
strictly exceeds the arg-max sentinel `-sys.maxsize` — as holds for every
tree a real run can build — `select` behaves exactly as claimed: it returns
the node itself when it has no children, recurses into the first child
holding the maximal UCB1 score when the node is fully expanded, and returns
the first not-yet-visited child in insertion order otherwise.  (Without the
proviso the arg-max loop can leave `max_node = None` and `select` crashes;
see the counterexample.) -/
theorem claim_C6 (cp : ℝ) (t : Node β μ) (hsc : ScoresAbove cp t) :
    ∃ p, AIPlayer.select cp t = some p ∧ SelectSpec cp t p := by
  suffices h : ∀ (n : ℕ) (t : Node β μ), sizeOf t ≤ n → ScoresAbove cp t →
      ∃ p, AIPlayer.select cp t = some p ∧ SelectSpec cp t p from
    h (sizeOf t) t le_rfl hsc
  intro n
  induction n with
  | zero =>
    intro t hle _
    exfalso
    cases t with
    | mk v r b c a kids =>
      simp only [Node.mk.sizeOf_spec] at hle
      omega
  | succ n ihn =>
    intro t hle hsc
    obtain ⟨habove, hrec⟩ : (∀ k ∈ t.children,
        -sysMaxsize < k.get_ucb t.visits cp) ∧
        (∀ k ∈ t.children, ScoresAbove cp k) := by
      cases hsc with
      | mk _ h1 h2 => exact ⟨h1, h2⟩
    rw [AIPlayer.select]
    by_cases hempty : t.children.isEmpty
    · rw [if_pos hempty]
      exact ⟨[], rfl, SelectSpec.leaf t (List.isEmpty_iff.mp hempty)⟩
    · rw [if_neg hempty]
      have hne : t.children ≠ [] := by
        intro hc
        rw [hc] at hempty
        exact hempty rfl
      by_cases hfull : t.full_expanded
      · rw [if_pos hfull]
        obtain ⟨k0, hk0⟩ := List.exists_mem_of_ne_nil t.children hne
        obtain ⟨j, child, hres, hget, hgt, hmax, hearlier⟩ :=
          bestChildLoop_max t.visits cp t.children 0 (-sysMaxsize) none
            ⟨k0, hk0, habove k0 hk0⟩
        rw [zero_add] at hres
        have hmem : child ∈ t.children := List.getElem?_mem hget
        have hsz : sizeOf child ≤ n := by
          have := sizeOf_child_lt t child hmem
          omega
        obtain ⟨p, hsel, hspec⟩ := ihn child hsz (hrec child hmem)
        split
        next heq =>
          rw [heq] at hres
          cases hres
        next ic heq =>
          rw [heq] at hres
          obtain rfl : ic = (j, child) := Option.some.inj hres
          refine ⟨j :: p, ?_, SelectSpec.best t j child p hfull hget hmax
            hearlier hspec⟩
          rw [hsel]
          rfl
      · rw [if_neg hfull]
        have hf : t.full_expanded = false := by
          rwa [Bool.not_eq_true] at hfull
        have hzero : ∃ k ∈ t.children, k.visits = 0 := by
          rw [Node.full_expanded, if_neg hempty] at hf
          obtain ⟨k, hk, hnk⟩ := List.all_eq_false.mp hf
          refine ⟨k, hk, ?_⟩
          simpa using hnk
        obtain ⟨j, child, hres, hget, hz, hearlier⟩ :=
          firstZeroIdx_spec t.children 0 hzero
        rw [zero_add] at hres
        rw [hres]
        exact ⟨[j], rfl,
          SelectSpec.firstUnvisited t j child hne hf hget hz hearlier⟩

/-- C6, counterexample to the claim as stated: a fully expanded node whose
single child has one visit and reward `-(2^63 - 1)` under parent visits 1,
so the child's UCB1 score is exactly `-sys.maxsize`.  The claim requires
`select` to recurse into that child (the spec relation prescribes path
`[0]`), but the arg-max loop's strict comparison against its `-sys.maxsize`
sentinel never fires, `max_node` stays `None`, and the recursive
`self.select(None)` call crashes (`none`). -/
theorem claim_C6_cex :
    AIPlayer.select AIPlayer.ucb_param
      (Node.mk 1 0 () Color.X (none : Option ℕ)
        [Node.mk 1 (-(2 ^ 63 - 1 : ℚ)) () Color.O (some 0) []]) = none ∧
    SelectSpec AIPlayer.ucb_param
      (Node.mk 1 0 () Color.X (none : Option ℕ)
        [Node.mk 1 (-(2 ^ 63 - 1 : ℚ)) () Color.O (some 0) []]) [0] := by
  have hucb : (Node.mk 1 (-(2 ^ 63 - 1 : ℚ)) () Color.O (some 0)
      ([] : List (Node Unit ℕ))).get_ucb 1 AIPlayer.ucb_param = -sysMaxsize := by
    rw [Node.get_ucb, if_neg (by norm_num [Node.visits])]
    simp only [Node.reward, Node.visits, Nat.cast_one, Real.log_one,
      AIPlayer.ucb_param, sysMaxsize]
    rw [mul_zero, zero_div, Real.sqrt_zero, mul_zero, add_zero, div_one]
    push_cast
    ring
  constructor
  · have hb : AIPlayer.bestChildLoop 1 AIPlayer.ucb_param
        [Node.mk 1 (-(2 ^ 63 - 1 : ℚ)) () Color.O (some 0) []] 0
        (-sysMaxsize) none = none := by
      rw [AIPlayer.bestChildLoop, hucb, if_neg (lt_irrefl _)]
      rfl
    rw [AIPlayer.select, if_neg (by decide), if_pos (by decide)]
    split
    next => rfl
    next ic heq =>
      simp only [Node.visits, Node.children] at heq
      rw [hb] at heq
      cases heq
  · refine SelectSpec.best _ 0
      (Node.mk 1 (-(2 ^ 63 - 1 : ℚ)) () Color.O (some 0) []) []
      (by decide) (by simp [Node.children]) ?_ ?_ (SelectSpec.leaf _ rfl)
    · intro k hk
      have hkchild : k = Node.mk 1 (-(2 ^ 63 - 1 : ℚ)) () Color.O (some 0) [] := by
        simpa [Node.children] using hk
      rw [hkchild]
    · intro j k hj _
      omega

/-- C6, witness for the amended theorem at a concrete input: a childless
node (every tree node trivially satisfies the score proviso). -/
theorem claim_C6_witness :
    ∃ p, AIPlayer.select AIPlayer.ucb_param
        (Node.mk 0 0 () Color.X (none : Option ℕ) []) = some p ∧
      SelectSpec AIPlayer.ucb_param
        (Node.mk 0 0 () Color.X (none : Option ℕ) []) p :=
  claim_C6 AIPlayer.ucb_param _
    (ScoresAbove.mk _ (fun k hk => absurd hk (by simp [Node.children]))
      (fun k hk => absurd hk (by simp [Node.children])))

/-- `select` on a childless node returns the node itself (path `[]`). -/
theorem select_childless (cp : ℝ) (v : ℕ) (r : ℚ) (b : β) (c : Color)
    (a : Option μ) :
    AIPlayer.select cp (Node.mk v r b c a []) = some [] := by
  rw [AIPlayer.select, if_pos (by simp [Node.children])]

/-- The rollout loop exits immediately on a terminal rollout board. -/
theorem simLoop_gameover (g : GameOps β μ) (ch : ℕ → ℕ) (nb board : β)
    (colr : Color) (fuel : ℕ) (tr : List (β × μ × Color))
    (hgo : AIPlayer.game_over g board = true) :
    AIPlayer.simLoop g ch nb board colr fuel tr = some (board, tr) := by
  cases fuel with
  | zero => rfl
  | succ n => rw [AIPlayer.simLoop, if_pos hgo]

/-- One search iteration on a terminal-board root (no legal move for either
color): `select` returns the root, `extend` creates no child, the rollout
exits at once, and `backup` bumps only the root. -/
theorem iter1_terminal (g : GameOps β μ) (ch : ℕ → ℕ) (sc : Color) (cp : ℝ)
    (v : ℕ) (r : ℚ) (b : β)
    (hX : g.legal_actions b Color.X = [])
    (hO : g.legal_actions b Color.O = []) :
    AIPlayer.iter1 g ch sc cp (Node.mk v r b sc none []) =
      some (Node.mk (v + 1) (r + AIPlayer.rewardOf g b sc) b sc none []) := by
  have hgo : AIPlayer.game_over g b = true := by
    unfold AIPlayer.game_over
    rw [hX, hO]
    rfl
  have hleg : g.legal_actions b sc = [] := by
    cases sc
    · exact hX
    · exact hO
  have hext : AIPlayer.extend_node g (Node.mk v r b sc none []) =
      (Node.mk v r b sc none [], false) := by
    unfold AIPlayer.extend_node
    dsimp only
    by_cases hv : v = 0
    · rw [if_pos hv]
    · rw [if_neg hv, hleg]
      rfl
  have hextAt : AIPlayer.extendAt g (Node.mk v r b sc none []) [] =
      (Node.mk v r b sc none [], []) := by
    rw [AIPlayer.extendAt, hext]
    rfl
  have hsim : AIPlayer.stimulate g ch b sc sc =
      some (AIPlayer.rewardOf g b sc, []) := by
    unfold AIPlayer.stimulate
    rw [simLoop_gameover g ch b b sc 50 [] hgo]
    rfl
  unfold AIPlayer.iter1
  rw [select_childless]
  dsimp only
  rw [hextAt]
  dsimp only [Node.getAt, Node.now_board, Node.color]
  rw [hsim]
  dsimp only
  rw [AIPlayer.backup, if_pos rfl]

/-- The search loop on a terminal-board root completes all its iterations,
keeping the root childless. -/
theorem uctLoop_terminal (g : GameOps β μ) (ch : ℕ → ℕ → ℕ) (sc : Color)
    (cp : ℝ) (b : β)
    (hX : g.legal_actions b Color.X = [])
    (hO : g.legal_actions b Color.O = []) :
    ∀ (n k : ℕ) (v : ℕ) (r : ℚ),
      ∃ v2 r2, AIPlayer.uctLoop g ch sc cp n k (Node.mk v r b sc none []) =
        (some (Node.mk v2 r2 b sc none []), k + n) := by
  intro n
  induction n with
  | zero =>
    intro k v r
    exact ⟨v, r, rfl⟩
  | succ n ih =>
    intro k v r
    rw [AIPlayer.uctLoop, iter1_terminal g (ch k) sc cp v r b hX hO]
    obtain ⟨v2, r2, hrec⟩ := ih (k + 1) (v + 1) (r + AIPlayer.rewardOf g b sc)
    refine ⟨v2, r2, ?_⟩
    dsimp only
    rw [hrec]
    congr 1
    omega

/-- C1: the claim is right and the code wrong.  On a position where neither
side has a legal move, `get_move` still performs all 50 search iterations
(the loop body runs unconditionally `max_times` times, each merely bumping
the childless root), and then the decision loop over the root's zero
children leaves `max_node = None`, so `return max_node.action` raises
`AttributeError` instead of reporting "no move available": the result is the
`None` dereference after 50 iterations, not `NoMoveAvailable` after zero. -/
theorem claim_C1 (g : GameOps β μ) (ch : ℕ → ℕ → ℕ) (sc : Color) (b : β)
    (hX : g.legal_actions b Color.X = [])
    (hO : g.legal_actions b Color.O = []) :
    AIPlayer.get_move g ch sc b = (AIPlayer.UctResult.noneDereference, 50) := by
  unfold AIPlayer.get_move AIPlayer.uct AIPlayer.max_times
  obtain ⟨v2, r2, hloop⟩ := uctLoop_terminal g ch sc AIPlayer.ucb_param b hX hO
    50 0 0 0
  rw [show (mkRoot b sc : Node β μ) = Node.mk 0 0 b sc none [] from rfl, hloop]
  rfl

/-- C1, witness at a concrete input: a terminal position of the constant
game with no legal action for either color. -/
theorem claim_C1_witness :
    AIPlayer.get_move (constG (fun _ => []) (2, 0)) (fun _ _ => 0) Color.X ()
      = (AIPlayer.UctResult.noneDereference, 50) :=
  claim_C1 (constG (fun _ => []) (2, 0)) (fun _ _ => 0) Color.X () rfl rfl

/-- Reference bounds are monotone in the store length. -/
theorem RefsBelow_mono (B B2 : ℕ) (hB : B ≤ B2) :
    ∀ t : Node ℕ μ, RefsBelow B t → RefsBelow B2 t := by
  intro t h
  induction h with
  | mk t hb _ ih => exact RefsBelow.mk t (lt_of_lt_of_le hb hB) ih

/-- `backup` does not touch board references. -/
theorem backup_RefsBelow (self : Color) (B : ℕ) :
    ∀ (p : List ℕ) (t : Node ℕ μ) (rew : ℚ),
      RefsBelow B t → RefsBelow B (AIPlayer.backup self t p rew) := by
  intro p
  induction p with
  | nil =>
    intro t rew h
    cases t with
    | mk v r b c a kids =>
      cases h with
      | mk _ hb hkids => exact RefsBelow.mk _ hb hkids
  | cons i p2 ih =>
    intro t rew h
    cases t with
    | mk v r b c a kids =>
      cases h with
      | mk _ hb hkids =>
        refine RefsBelow.mk _ hb ?_
        show ∀ k ∈ (AIPlayer.backup self (Node.mk v r b c a kids) (i :: p2)
          rew).children, RefsBelow B k
        simp only [AIPlayer.backup, Node.children]
        cases hki : kids[i]? with
        | none =>
          simp only [hki]
          exact hkids
        | some child =>
          simp only [hki]
          intro k hk
          rcases List.mem_or_eq_of_mem_set hk with hk2 | hk2
          · exact hkids k hk2
          · subst hk2
            exact ih child rew (hkids child (List.getElem?_mem hki))

/-- Frame property of the child-creation loop of the store-level `extend`:
the store only grows, already-allocated cells keep their values, and every
created child's reference is an allocated cell of the final store. -/
theorem extendFold_frame (g : GameOps γ μ) (bref : ℕ) (c : Color) :
    ∀ (acts : List μ) (s : Store γ) (ks : List (Node ℕ μ)),
      s.len ≤ (acts.foldl (AIPlayer.extendFoldStep g bref c) (s, ks)).1.len ∧
      (∀ i, i < s.len →
        (acts.foldl (AIPlayer.extendFoldStep g bref c) (s, ks)).1.mem i
          = s.mem i) ∧
      (∀ k ∈ (acts.foldl (AIPlayer.extendFoldStep g bref c) (s, ks)).2,
        k ∈ ks ∨ (k.now_board <
          (acts.foldl (AIPlayer.extendFoldStep g bref c) (s, ks)).1.len ∧
          k.children = [])) := by
  intro acts
  induction acts with
  | nil =>
    intro s ks
    exact ⟨le_refl _, fun i _ => rfl, fun k hk => Or.inl hk⟩
  | cons a rest ih =>
    intro s ks
    rw [List.foldl_cons]
    obtain ⟨hlen, hmem, hkids⟩ :=
      ih (AIPlayer.extendFoldStep g bref c (s, ks) a).1
        (AIPlayer.extendFoldStep g bref c (s, ks) a).2
    have hslen : (AIPlayer.extendFoldStep g bref c (s, ks) a).1.len
        = s.len + 1 := rfl
    have hsmem : ∀ i, i < s.len →
        (AIPlayer.extendFoldStep g bref c (s, ks) a).1.mem i = s.mem i := by
      intro i hi
      show (if i = s.len then _ else if i = s.len then _ else s.mem i) = s.mem i
      rw [if_neg (by omega), if_neg (by omega)]
    have hskids : (AIPlayer.extendFoldStep g bref c (s, ks) a).2
        = ks ++ [Node.mk 0 0 s.len c.flip (some a) []] := rfl
    rw [hslen] at hlen
    refine ⟨?_, ?_, ?_⟩
    · exact le_trans (Nat.le_succ _) hlen
    · intro i hi
      exact (hmem i (by rw [hslen]; omega)).trans (hsmem i hi)
    · intro k hk
      rcases hkids k hk with hk2 | hk2
      · rw [hskids] at hk2
        rcases List.mem_append.mp hk2 with hk3 | hk3
        · exact Or.inl hk3
        · right
          have hkeq : k = Node.mk 0 0 s.len c.flip (some a) [] := by
            simpa using hk3
          rw [hkeq]
          exact ⟨lt_of_lt_of_le (Nat.lt_succ_self _) hlen, rfl⟩
      · exact Or.inr hk2

/-- Frame property of the store-level `extend` body: the store only grows,
already-allocated cells keep their values, and the expanded node's
references stay within the allocated cells. -/
theorem extend_nodeS_frame (g : GameOps γ μ) (s : Store γ) (t : Node ℕ μ) :
    s.len ≤ (AIPlayer.extend_nodeS g s t).1.len ∧
    (∀ i, i < s.len → (AIPlayer.extend_nodeS g s t).1.mem i = s.mem i) ∧
    (RefsBelow s.len t →
      RefsBelow (AIPlayer.extend_nodeS g s t).1.len
        (AIPlayer.extend_nodeS g s t).2.1) := by
  cases t with
  | mk v r b c a kids =>
    unfold AIPlayer.extend_nodeS
    dsimp only
    by_cases hv : v = 0
    · rw [if_pos hv]
      exact ⟨le_refl _, fun i _ => rfl, fun h => h⟩
    · rw [if_neg hv]
      obtain ⟨hlen, hmem, hkids⟩ := extendFold_frame g b c
        (g.legal_actions (s.read b) c) s []
      refine ⟨hlen, hmem, ?_⟩
      intro hrb
      cases hrb with
      | mk _ hb hkb =>
        refine RefsBelow.mk _ (lt_of_lt_of_le hb hlen) ?_
        intro k hk
        simp only [Node.children] at hk
        rcases List.mem_append.mp hk with hk2 | hk2
        · exact RefsBelow_mono s.len _ hlen k (hkb k hk2)
        · rcases hkids k hk2 with hk3 | hk3
          · cases hk3
          · refine RefsBelow.mk _ hk3.1 ?_
            rw [hk3.2]
            intro k2 hk4
            cases hk4

/-- Frame property of the store-level `extend` at a path. -/
theorem extendAtS_frame (g : GameOps γ μ) :
    ∀ (p : List ℕ) (s : Store γ) (t : Node ℕ μ),
      s.len ≤ (AIPlayer.extendAtS g s t p).1.len ∧
      (∀ i, i < s.len → (AIPlayer.extendAtS g s t p).1.mem i = s.mem i) ∧
      (RefsBelow s.len t →
        RefsBelow (AIPlayer.extendAtS g s t p).1.len
          (AIPlayer.extendAtS g s t p).2.1) := by
  intro p
  induction p with
  | nil =>
    intro s t
    have h := extend_nodeS_frame g s t
    simp only [AIPlayer.extendAtS]
    exact h
  | cons i p2 ih =>
    intro s t
    cases t with
    | mk v r b c a kids =>
      show s.len ≤ (AIPlayer.extendAtS g s (Node.mk v r b c a kids)
        (i :: p2)).1.len ∧ _
      simp only [AIPlayer.extendAtS]
      cases hki : kids[i]? with
      | none =>
        simp only [hki]
        exact ⟨le_refl _, by simp, fun h => h⟩
      | some child =>
        simp only [hki]
        obtain ⟨hlen, hmem, hrb⟩ := ih s child
        refine ⟨hlen, hmem, ?_⟩
        intro h
        cases h with
        | mk _ hb hkb =>
          refine RefsBelow.mk _ (lt_of_lt_of_le hb hlen) ?_
          intro k hk
          simp only [Node.children] at hk
          rcases List.mem_or_eq_of_mem_set hk with hk2 | hk2
          · exact RefsBelow_mono s.len _ hlen k (hkb k hk2)
          · subst hk2
            exact hrb (hkb child (List.getElem?_mem hki))

/-- Frame property of the store-level rollout loop: it returns the rollout
board's reference, does not allocate, and writes only the rollout board's
cell. -/
theorem simLoopS_frame (g : GameOps γ μ) (ch : ℕ → ℕ) (nbRef : ℕ) :
    ∀ (fuel : ℕ) (s : Store γ) (bRef : ℕ) (colr : Color) (s2 : Store γ)
      (r2 : ℕ),
      AIPlayer.simLoopS g ch nbRef s bRef colr fuel = some (s2, r2) →
      r2 = bRef ∧ s2.len = s.len ∧ ∀ i, i ≠ bRef → s2.mem i = s.mem i := by
  intro fuel
  induction fuel with
  | zero =>
    intro s bRef colr s2 r2 h
    rw [AIPlayer.simLoopS] at h
    cases h
    exact ⟨rfl, rfl, fun _ _ => rfl⟩
  | succ n ih =>
    intro s bRef colr s2 r2 h
    rw [AIPlayer.simLoopS] at h
    by_cases hgo : AIPlayer.game_over g (s.read bRef) = true
    · rw [if_pos hgo] at h
      cases h
      exact ⟨rfl, rfl, fun _ _ => rfl⟩
    · rw [if_neg hgo] at h
      dsimp only at h
      by_cases hal : (g.legal_actions (s.read nbRef) colr).length ≠ 0
      · rw [if_pos hal] at h
        cases hpick : AIPlayer.pickFrom (ch (n + 1))
            (g.legal_actions (s.read nbRef) colr) with
        | none =>
          rw [hpick] at h
          cases h
        | some act =>
          rw [hpick] at h
          obtain ⟨hr, hlen, hmem⟩ := ih _ _ _ _ _ h
          refine ⟨hr, hlen, ?_⟩
          intro i hi
          rw [hmem i hi]
          show (if i = bRef then _ else s.mem i) = s.mem i
          rw [if_neg hi]
      · rw [if_neg hal] at h
        cases hpick : AIPlayer.pickFrom (ch (n + 1))
            (g.legal_actions (s.read nbRef) colr.flip) with
        | none =>
          rw [hpick] at h
          cases h
        | some act =>
          rw [hpick] at h
          obtain ⟨hr, hlen, hmem⟩ := ih _ _ _ _ _ h
          refine ⟨hr, hlen, ?_⟩
          intro i hi
          rw [hmem i hi]
          show (if i = bRef then _ else s.mem i) = s.mem i
          rw [if_neg hi]

/-- Frame property of the store-level `stimulate`: it allocates one fresh
cell (the rollout board), mutates only that cell, and leaves every
previously allocated cell unchanged. -/
theorem stimulateS_frame (g : GameOps γ μ) (ch : ℕ → ℕ) (s : Store γ)
    (nbRef : ℕ) (colr self : Color) (s2 : Store γ) (rw2 : ℚ)
    (h : AIPlayer.stimulateS g ch s nbRef colr self = some (s2, rw2)) :
    s.len ≤ s2.len ∧ ∀ i, i < s.len → s2.mem i = s.mem i := by
  unfold AIPlayer.stimulateS at h
  dsimp only at h
  cases hsim : AIPlayer.simLoopS g ch nbRef (s.deepcopy nbRef).1
      (s.deepcopy nbRef).2 colr 50 with
  | none =>
    rw [hsim] at h
    cases h
  | some sr =>
    rw [hsim] at h
    cases h
    obtain ⟨hr, hlen, hmem⟩ := simLoopS_frame g ch nbRef 50 _ _ _ sr.1 sr.2
      (by rw [hsim])
    have hclen : (Store.deepcopy s nbRef).1.len = s.len + 1 := rfl
    constructor
    · rw [hlen, hclen]
      omega
    · intro i hi
      have hibref : i ≠ (s.deepcopy nbRef).2 := by
        show i ≠ s.len
        omega
      rw [hmem i (hr ▸ hibref)]
      show (if i = s.len then _ else s.mem i) = s.mem i
      rw [if_neg (by omega)]

/-- Frame property of one store-level search iteration: the store only
grows, previously allocated cells — in particular the board objects held by
all nodes existing before the iteration, and the caller's board — keep
their values, and the tree's references stay within the allocated cells. -/
theorem iter1S_frame (g : GameOps γ μ) (ch : ℕ → ℕ) (sc : Color) (cp : ℝ)
    (s : Store γ) (t : Node ℕ μ) (s2 : Store γ) (t2 : Node ℕ μ)
    (h : AIPlayer.iter1S g ch sc cp s t = some (s2, t2)) :
    s.len ≤ s2.len ∧ (∀ i, i < s.len → s2.mem i = s.mem i) ∧
    (RefsBelow s.len t → RefsBelow s2.len t2) := by
  unfold AIPlayer.iter1S at h
  cases hsel : AIPlayer.select cp t with
  | none =>
    rw [hsel] at h
    cases h
  | some p =>
    rw [hsel] at h
    dsimp only at h
    cases hget : (AIPlayer.extendAtS g s t p).2.1.getAt
        (AIPlayer.extendAtS g s t p).2.2 with
    | none =>
      rw [hget] at h
      cases h
    | some leaf =>
      rw [hget] at h
      dsimp only at h
      cases hstim : AIPlayer.stimulateS g ch (AIPlayer.extendAtS g s t p).1
          leaf.now_board leaf.color sc with
      | none =>
        rw [hstim] at h
        cases h
      | some sr =>
        rw [hstim] at h
        cases h
        obtain ⟨hel, hem, herb⟩ := extendAtS_frame g p s t
        obtain ⟨hsl, hsm⟩ := stimulateS_frame g ch _ leaf.now_board leaf.color
          sc sr.1 sr.2 (by rw [hstim])
        refine ⟨le_trans hel hsl, ?_, ?_⟩
        · intro i hi
          rw [hsm i (lt_of_lt_of_le hi hel), hem i hi]
        · intro hrb
          exact backup_RefsBelow sc sr.1.len _ _ _
            (RefsBelow_mono _ _ hsl _ (herb hrb))

/-- Frame property of the store-level search loop. -/
theorem uctLoopS_frame (g : GameOps γ μ) (ch : ℕ → ℕ → ℕ) (sc : Color)
    (cp : ℝ) :
    ∀ (n : ℕ) (s : Store γ) (t : Node ℕ μ) (s2 : Store γ) (t2 : Node ℕ μ),
      AIPlayer.uctLoopS g ch sc cp n s t = some (s2, t2) →
      s.len ≤ s2.len ∧ (∀ i, i < s.len → s2.mem i = s.mem i) ∧
      (RefsBelow s.len t → RefsBelow s2.len t2) := by
  intro n
  induction n with
  | zero =>
    intro s t s2 t2 h
    rw [AIPlayer.uctLoopS] at h
    cases h
    exact ⟨le_refl _, fun _ _ => rfl, fun h2 => h2⟩
  | succ n ih =>
    intro s t s2 t2 h
    rw [AIPlayer.uctLoopS] at h
    cases hit : AIPlayer.iter1S g (ch n) sc cp s t with
    | none =>
      rw [hit] at h
      cases h
    | some st =>
      rw [hit] at h
      obtain ⟨h1, h2, h3⟩ := iter1S_frame g (ch n) sc cp s t st.1 st.2
        (by rw [hit])
      obtain ⟨h4, h5, h6⟩ := ih st.1 st.2 s2 t2 h
      exact ⟨le_trans h1 h4,
        fun i hi => (h5 i (lt_of_lt_of_le hi h1)).trans (h2 i hi),
        fun hrb => h6 (h3 hrb)⟩

/-- C10: the store-level decision call never mutates any board object that
existed before it (the caller's board included): the final store agrees
with the initial one on every previously allocated cell, the store only
grows, and — per the second conjunct, which covers each of the 50 search
iterations individually — every iteration likewise leaves all cells
allocated before it unchanged while keeping tree references allocated, so a
node's board snapshot, allocated before the node enters the tree, is never
written after the node's creation: the root holds a deep copy of the
caller's board, expansion mutates only fresh deep copies, and the rollout
plays only on a fresh deep copy. -/
theorem claim_C10 (g : GameOps γ μ) (ch : ℕ → ℕ → ℕ) (sc : Color)
    (s : Store γ) (bRef : ℕ) (s2 : Store γ) (res : AIPlayer.UctResult μ)
    (h : AIPlayer.get_moveS g ch sc s bRef = some (s2, res)) :
    (s.len ≤ s2.len ∧ ∀ i, i < s.len → s2.mem i = s.mem i) ∧
    (∀ (ch2 : ℕ → ℕ) (cp : ℝ) (s3 : Store γ) (t3 : Node ℕ μ) (s4 : Store γ)
      (t4 : Node ℕ μ), AIPlayer.iter1S g ch2 sc cp s3 t3 = some (s4, t4) →
      s3.len ≤ s4.len ∧ (∀ i, i < s3.len → s4.mem i = s3.mem i) ∧
      (RefsBelow s3.len t3 → RefsBelow s4.len t4)) := by
  constructor
  · unfold AIPlayer.get_moveS AIPlayer.uctS at h
    dsimp only at h
    cases hloop : AIPlayer.uctLoopS g ch sc AIPlayer.ucb_param
        AIPlayer.max_times (s.deepcopy bRef).1 (mkRoot (s.deepcopy bRef).2 sc)
        with
    | none =>
      rw [hloop] at h
      cases h
    | some st =>
      rw [hloop] at h
      dsimp only at h
      obtain ⟨h1, h2, _⟩ := uctLoopS_frame g ch sc AIPlayer.ucb_param
        AIPlayer.max_times (s.deepcopy bRef).1 (mkRoot (s.deepcopy bRef).2 sc)
        st.1 st.2 (by rw [hloop])
      have hclen : (s.deepcopy bRef).1.len = s.len + 1 := rfl
      have hcmem : ∀ i, i < s.len → (s.deepcopy bRef).1.mem i = s.mem i := by
        intro i hi
        show (if i = s.len then _ else s.mem i) = s.mem i
        rw [if_neg (by omega)]
      have hs2 : s2 = st.1 := by
        cases hbc : AIPlayer.bestChildLoop st.2.visits AIPlayer.ucb_param
            st.2.children 0 (-sysMaxsize) none with
        | none =>
          rw [hbc] at h
          cases h
          rfl
        | some ic =>
          rw [hbc] at h
          cases h
          rfl
      subst hs2
      constructor
      · rw [hclen] at h1
        omega
      · intro i hi
        rw [h2 i (by rw [hclen]; omega), hcmem i hi]
  · intro ch2 cp s3 t3 s4 t4 h2
    exact iter1S_frame g ch2 sc cp s3 t3 s4 t4 h2

/-- The store-level rollout loop exits immediately on a terminal rollout
board. -/
theorem simLoopS_gameover (g : GameOps γ μ) (ch : ℕ → ℕ) (nbRef : ℕ)
    (s : Store γ) (bRef : ℕ) (colr : Color) (fuel : ℕ)
    (hgo : AIPlayer.game_over g (s.read bRef) = true) :
    AIPlayer.simLoopS g ch nbRef s bRef colr fuel = some (s, bRef) := by
  cases fuel with
  | zero => rfl
  | succ n => rw [AIPlayer.simLoopS, if_pos hgo]

/-- One store-level search iteration in the all-terminal game: it allocates
the rollout copy and bumps the root. -/
theorem iter1S_idG (γ : Type) (ch : ℕ → ℕ) (cp : ℝ) (s : Store γ) (v : ℕ)
    (r : ℚ) (bref : ℕ) :
    ∃ r2, AIPlayer.iter1S (idG γ) ch Color.X cp s
        (Node.mk v r bref Color.X none []) =
      some ((s.deepcopy bref).1, Node.mk (v + 1) r2 bref Color.X none []) := by
  have hext : AIPlayer.extend_nodeS (idG γ) s
      (Node.mk v r bref Color.X none []) =
      (s, Node.mk v r bref Color.X none [], false) := by
    unfold AIPlayer.extend_nodeS
    dsimp only
    by_cases hv : v = 0
    · rw [if_pos hv]
    · rw [if_neg hv]
      rfl
  have hextAt : AIPlayer.extendAtS (idG γ) s
      (Node.mk v r bref Color.X none []) [] =
      (s, Node.mk v r bref Color.X none [], []) := by
    rw [AIPlayer.extendAtS, hext]
    rfl
  have hsim : AIPlayer.stimulateS (idG γ) ch s bref Color.X Color.X =
      some ((s.deepcopy bref).1, AIPlayer.rewardOf (idG γ)
        ((s.deepcopy bref).1.read (s.deepcopy bref).2) Color.X) := by
    unfold AIPlayer.stimulateS
    dsimp only
    rw [simLoopS_gameover (idG γ) ch bref (s.deepcopy bref).1
      (s.deepcopy bref).2 Color.X 50 rfl]
    rfl
  unfold AIPlayer.iter1S
  rw [select_childless]
  dsimp only
  rw [hextAt]
  dsimp only [Node.getAt, Node.now_board, Node.color]
  rw [hsim]
  dsimp only
  rw [AIPlayer.backup, if_pos rfl]
  exact ⟨_, rfl⟩

/-- The store-level search loop in the all-terminal game completes. -/
theorem uctLoopS_idG (γ : Type) (ch : ℕ → ℕ → ℕ) (cp : ℝ) :
    ∀ (n : ℕ) (s : Store γ) (v : ℕ) (r : ℚ) (bref : ℕ),
      ∃ s2 v2 r2, AIPlayer.uctLoopS (idG γ) ch Color.X cp n s
          (Node.mk v r bref Color.X none []) =
        some (s2, Node.mk v2 r2 bref Color.X none []) := by
  intro n
  induction n with
  | zero =>
    intro s v r bref
    exact ⟨s, v, r, rfl⟩
  | succ n ih =>
    intro s v r bref
    rw [AIPlayer.uctLoopS]
    obtain ⟨r2, hit⟩ := iter1S_idG γ (ch n) cp s v r bref
    rw [hit]
    exact ih (s.deepcopy bref).1 (v + 1) r2 bref

/-- A full store-level decision call in the all-terminal game returns (with
the `None` dereference of C1, irrelevant here). -/
theorem get_moveS_idG (γ : Type) (ch : ℕ → ℕ → ℕ) (s : Store γ) (bref : ℕ) :
    ∃ s2, AIPlayer.get_moveS (idG γ) ch Color.X s bref =
      some (s2, AIPlayer.UctResult.noneDereference) := by
  unfold AIPlayer.get_moveS AIPlayer.uctS
  dsimp only
  obtain ⟨s2, v2, r2, hloop⟩ := uctLoopS_idG γ ch AIPlayer.ucb_param
    AIPlayer.max_times (s.deepcopy bref).1 0 0 (s.deepcopy bref).2
  rw [show (mkRoot (s.deepcopy bref).2 Color.X : Node ℕ ℕ) =
    Node.mk 0 0 (s.deepcopy bref).2 Color.X none [] from rfl]
  rw [hloop]
  exact ⟨s2, rfl⟩

/-- C10, witness at a concrete input: a one-cell store holding the caller's
board at reference 0; after the full decision call the caller's cell is
unchanged. -/
theorem claim_C10_witness :
    ∃ s2, AIPlayer.get_moveS (idG ℕ) (fun _ _ => 0) Color.X
        (Store.mk 1 (fun i => i)) 0 =
      some (s2, AIPlayer.UctResult.noneDereference) ∧ s2.mem 0 = 0 := by
  obtain ⟨s2, hrun⟩ := get_moveS_idG ℕ (fun _ _ => 0)
    (Store.mk 1 (fun i => i)) 0
  have h := claim_C10 (idG ℕ) (fun _ _ => 0) Color.X (Store.mk 1 (fun i => i))
    0 s2 AIPlayer.UctResult.noneDereference hrun
  refine ⟨s2, hrun, ?_⟩
  rw [h.1.2 0 (by norm_num)]

end AIReversi
